import Mathlib

/-!
Verification development for the `geo` package (smarteaston/golang-geo).

The package stores coordinates as Go `float64` values.  We model a `float64`
by the type `F` below: an exact rational for every finite value, plus the
IEEE-754 special values `+Inf`, `-Inf` and `NaN`.  Comparisons (`==`, `<`,
`>`, `>=`) follow the IEEE rules (every comparison involving NaN is false).
Finite subtraction and division are modelled exactly on the rationals
(the repository's test cases only exercise values where binary64
arithmetic is itself exact); division by zero and the infinite/NaN cases
follow the IEEE tables.

`math.Nextafter(x, math.Inf(1))` is modelled by `nextUp`: it adds the
minimal positive binary64 increment `dlt = 2^(-1074)` to a finite value,
maps `-Inf` to the least finite value, is the identity on `+Inf` (as in Go,
since `Nextafter` returns its argument when `x == y`), and the identity on
NaN.  The fixed increment is exactly the behaviour of `Nextafter` on the
subnormal range; every concrete input used to settle a claim about the
perturbation loops is taken from that range, so on those inputs the model
steps bit-for-bit like the Go code.

The repository contains two versions of the containment routine:
`Contains`/`intersectsWithRaycast` from `polygon.go` (called V1 here) and
the variant from the unnamed source file `part_001` (called V2 here).
Their `while` loops can genuinely diverge (`Nextafter(+Inf, +Inf) = +Inf`),
so the loops are embedded with an explicit fuel parameter and return
`Option` results; `none` means the loop did not finish within the fuel.
-/

/-- The minimal positive binary64 increment, `2^(-1074)`. -/
def dlt : ℚ := 1 / 2 ^ 1074

/-- The largest finite binary64 value, `(2^53 - 1) * 2^971`. -/
def maxF : ℚ := (2 ^ 53 - 1) * 2 ^ 971

/-- Model of a Go `float64`: exact finite values plus `-Inf`, `+Inf`, `NaN`.
The two IEEE zeroes are collapsed into `fin 0`, which is faithful for every
operation the `geo` package performs (`-0.0 == 0.0` in IEEE, and
`Nextafter(±0, +Inf)` is the smallest subnormal). -/
inductive F where
  | nan : F
  | ninf : F
  | fin : ℚ → F
  | pinf : F
deriving DecidableEq

/-- IEEE `==` on modelled floats (NaN is equal to nothing). -/
def feq : F → F → Bool
  | .fin a, .fin b => a == b
  | .ninf, .ninf => true
  | .pinf, .pinf => true
  | _, _ => false

/-- IEEE `<` on modelled floats. -/
def flt : F → F → Bool
  | .nan, _ => false
  | _, .nan => false
  | .fin a, .fin b => a < b
  | .ninf, .ninf => false
  | .ninf, _ => true
  | _, .ninf => false
  | .fin _, .pinf => true
  | .pinf, _ => false

/-- IEEE `>` on modelled floats. -/
def fgt (a b : F) : Bool := flt b a

/-- IEEE `>=` on modelled floats (false whenever either side is NaN). -/
def fge : F → F → Bool
  | .nan, _ => false
  | _, .nan => false
  | .fin a, .fin b => b ≤ a
  | .pinf, _ => true
  | _, .pinf => false
  | _, .ninf => true
  | .ninf, _ => false

/-- IEEE subtraction, with exact rational arithmetic on finite values. -/
def fsub : F → F → F
  | .nan, _ => .nan
  | _, .nan => .nan
  | .fin a, .fin b => .fin (a - b)
  | .pinf, .pinf => .nan
  | .ninf, .ninf => .nan
  | .pinf, _ => .pinf
  | .ninf, _ => .ninf
  | .fin _, .pinf => .ninf
  | .fin _, .ninf => .pinf

/-- IEEE division, with exact rational arithmetic on finite values.
Division of a nonzero finite value by zero yields a signed infinity,
`0/0` yields NaN, and a finite value divided by an infinity yields zero. -/
def fdiv : F → F → F
  | .nan, _ => .nan
  | _, .nan => .nan
  | .fin a, .fin b =>
      if b = 0 then (if a = 0 then .nan else if a < 0 then .ninf else .pinf)
      else .fin (a / b)
  | .pinf, .fin b => if b < 0 then .ninf else .pinf
  | .ninf, .fin b => if b < 0 then .pinf else .ninf
  | .fin _, .pinf => .fin 0
  | .fin _, .ninf => .fin 0
  | .pinf, _ => .nan
  | .ninf, _ => .nan

/-- Model of `math.Nextafter(x, math.Inf(1))` (see the header comment). -/
def nextUp : F → F
  | .nan => .nan
  | .pinf => .pinf
  | .ninf => .fin (-maxF)
  | .fin q => if maxF ≤ q then .pinf else .fin (q + dlt)

/-- Model of `Point` from `point.go`: a latitude/longitude pair of modelled floats. -/
structure PointF where
  lat : F
  lng : F
deriving DecidableEq

/-- Model of `NewPoint` from `point.go`. -/
def NewPointF (lat lng : F) : PointF := ⟨lat, lng⟩

/-- Model of `Polygon` from `polygon.go`: an ordered sequence of points. -/
structure Polygon where
  points : List PointF
deriving DecidableEq

/-- Model of `NewPolygon` from `polygon.go`. -/
def NewPolygon (pts : List PointF) : Polygon := ⟨pts⟩

/-- Model of `Polygon.Points` from `polygon.go`. -/
def Polygon.Points (p : Polygon) : List PointF := p.points

/-- Model of `Polygon.IsClosed` from `polygon.go`: false iff fewer than 3 points. -/
def Polygon.IsClosed (p : Polygon) : Bool :=
  if p.points.length < 3 then false else true

/-- Fuelled embedding of `for x == v { x = math.Nextafter(x, math.Inf(1)) }`
(the inner perturbation loops of `Contains` in `part_001`).  `none` means
the loop did not terminate within `fuel` iterations. -/
def bumpWhileEq (v : F) : ℕ → F → Option F
  | 0, x => if feq x v then none else some x
  | n + 1, x => if feq x v then bumpWhileEq v n (nextUp x) else some x

/-- Fuelled embedding of
`for x == a || x == b { x = math.Nextafter(x, math.Inf(1)) }`
(the perturbation loop of `intersectsWithRaycast` in `polygon.go`). -/
def bumpWhileEq2 (a b : F) : ℕ → F → Option F
  | 0, x => if feq x a || feq x b then none else some x
  | n + 1, x => if feq x a || feq x b then bumpWhileEq2 a b n (nextUp x) else some x

/-- The degenerate-position avoidance loop of `Contains` in `part_001`
(lines 52-64): for every vertex, first bump the query latitude until it
differs from the vertex latitude, then bump the query longitude until it
differs from the vertex longitude. -/
def perturbV2 (fuel : ℕ) : List PointF → PointF → Option PointF
  | [], p => some p
  | v :: vs, p => do
      let lat ← bumpWhileEq v.lat fuel p.lat
      let lng ← bumpWhileEq v.lng fuel p.lng
      perturbV2 fuel vs ⟨lat, lng⟩

/-- The start/end normalization shared by both raycast routines:
swap the edge endpoints so the first has the smaller latitude. -/
def sortEdge (s e : PointF) : PointF × PointF :=
  if fgt s.lat e.lat then (e, s) else (s, e)

/-- Model of `intersectsWithRaycast` from `part_001` (lines 85-120); it has no
loop, hence no fuel. -/
def raycastV2 (point s e : PointF) : Bool :=
  let se := sortEdge s e
  let start := se.1
  let endp := se.2
  if flt point.lat start.lat || fgt point.lat endp.lat then false
  else if fgt start.lng endp.lng then
    if fgt point.lng start.lng then false
    else if flt point.lng endp.lng then true
    else
      fge (fdiv (fsub point.lat start.lat) (fsub point.lng start.lng))
        (fdiv (fsub endp.lat start.lat) (fsub endp.lng start.lng))
  else
    if fgt point.lng endp.lng then false
    else if flt point.lng start.lng then true
    else
      fge (fdiv (fsub point.lat start.lat) (fsub point.lng start.lng))
        (fdiv (fsub endp.lat start.lat) (fsub endp.lng start.lng))

/-- Model of `intersectsWithRaycast` from `polygon.go` (lines 79-125): normalizes the
edge, bumps the query latitude off the endpoint latitudes (fuelled loop),
then runs the span/band checks, the `point.lng == start.lng` guard, and the
slope comparison. -/
def raycastV1 (fuel : ℕ) (point0 s e : PointF) : Option Bool :=
  let se := sortEdge s e
  let start := se.1
  let endp := se.2
  match bumpWhileEq2 start.lat endp.lat fuel point0.lat with
  | none => none
  | some plat =>
    let point : PointF := ⟨plat, point0.lng⟩
    some (
      if flt point.lat start.lat || fgt point.lat endp.lat then false
      else if fgt start.lng endp.lng then
        if fgt point.lng start.lng then false
        else if flt point.lng endp.lng then true
        else if feq point.lng start.lng then false
        else
          fge (fdiv (fsub point.lat start.lat) (fsub point.lng start.lng))
            (fdiv (fsub endp.lat start.lat) (fsub endp.lng start.lng))
      else
        if fgt point.lng endp.lng then false
        else if flt point.lng start.lng then true
        else if feq point.lng start.lng then false
        else
          fge (fdiv (fsub point.lat start.lat) (fsub point.lng start.lng))
            (fdiv (fsub endp.lat start.lat) (fsub endp.lng start.lng)))

/-- The edge scan of `Contains` in `part_001`: the parity flag starts from
the wraparound edge (last point to first point) and is flipped once for
every crossing among the consecutive edges. -/
def edgeFoldV2 (p : PointF) (pts : List PointF) : Bool :=
  match pts with
  | [] => false
  | v0 :: rest =>
    let c0 := raycastV2 p (rest.getLastD v0) v0
    (pts.zip rest).foldl (fun acc se => if raycastV2 p se.1 se.2 then !acc else acc) c0

/-- The edge scan of `Contains` in `polygon.go`, with the fuelled raycast. -/
def edgeFoldV1 (fuel : ℕ) (p : PointF) (pts : List PointF) : Option Bool :=
  match pts with
  | [] => some false
  | v0 :: rest => do
    let c0 ← raycastV1 fuel p (rest.getLastD v0) v0
    (pts.zip rest).foldlM
      (fun acc se => do
        let r ← raycastV1 fuel p se.1 se.2
        pure (if r then !acc else acc))
      c0

/-- The exact-vertex scan of `Contains` in `polygon.go` (lines 54-58). -/
def vertexMatch (point : PointF) (pts : List PointF) : Bool :=
  pts.any (fun v => feq v.lat point.lat && feq v.lng point.lng)

/-- Model of `Contains` from `polygon.go` (lines 49-72), called V1: closedness
check, exact-vertex early return, then the edge scan. -/
def ContainsV1 (fuel : ℕ) (poly : Polygon) (point : PointF) : Option Bool :=
  if poly.IsClosed = false then some false
  else if vertexMatch point poly.points then some true
  else edgeFoldV1 fuel point poly.points

/-- Model of `Contains` from `part_001` (lines 47-78), called V2: closedness check,
up-front perturbation of the query against every vertex, then the edge
scan. -/
def ContainsV2 (fuel : ℕ) (poly : Polygon) (point : PointF) : Option Bool :=
  if poly.IsClosed = false then some false
  else
    match perturbV2 fuel poly.points point with
    | none => none
    | some p => some (edgeFoldV2 p poly.points)

/-! ## Basic facts about the float model -/

theorem feq_eq {x y : F} (h : feq x y = true) : x = y := by
  cases x <;> cases y <;> simp_all [feq]

theorem feq_comm (x y : F) : feq x y = feq y x := by
  cases x <;> cases y <;> simp [feq] <;> exact eq_comm

theorem feq_self_of_ne_nan {x : F} (h : x ≠ F.nan) : feq x x = true := by
  cases x <;> simp_all [feq]

theorem dlt_pos : 0 < dlt := by
  unfold dlt
  positivity

/-- One `Nextafter` step moves a value strictly off itself unless the value
is NaN (the loop never fires there) or `+Inf` (the loop never exits). -/
theorem feq_nextUp_self (x : F) (hx : x ≠ F.pinf) : feq (nextUp x) x = false := by
  cases x with
  | nan => simp [nextUp, feq]
  | ninf => simp [nextUp, feq]
  | pinf => exact absurd rfl hx
  | fin q =>
    simp only [nextUp]
    split
    · simp [feq]
    · simp only [feq]
      have : q + dlt ≠ q := by
        have := dlt_pos
        intro hq
        nlinarith
      simp [this]

/-! ## The perturbation loops do nothing when no coordinate collides -/

theorem bumpWhileEq_noop {x v : F} (h : feq x v = false) (fuel : ℕ) :
    bumpWhileEq v fuel x = some x := by
  cases fuel <;> simp [bumpWhileEq, h]

theorem bumpWhileEq2_noop {x a b : F} (ha : feq x a = false) (hb : feq x b = false)
    (fuel : ℕ) : bumpWhileEq2 a b fuel x = some x := by
  cases fuel <;> simp [bumpWhileEq2, ha, hb]

theorem perturbV2_noop (fuel : ℕ) (pts : List PointF) (q : PointF)
    (h : ∀ v ∈ pts, feq q.lat v.lat = false ∧ feq q.lng v.lng = false) :
    perturbV2 fuel pts q = some q := by
  induction pts with
  | nil => rfl
  | cons v vs ih =>
    have hv := h v (by simp)
    simp only [perturbV2, bumpWhileEq_noop hv.1, bumpWhileEq_noop hv.2, Option.bind_eq_bind,
      Option.some_bind]
    exact ih fun w hw => h w (List.mem_cons_of_mem _ hw)

/-! ## C2: polygons with fewer than 3 points -/

/-- C2: `IsClosed` is false exactly when the point count is below 3, and
both versions of `Contains` return false for every query point whenever
`IsClosed` is false (hence for every polygon with fewer than 3 points). -/
theorem c2_isClosed_contains (fuel : ℕ) (poly : Polygon) (pt : PointF) :
    (poly.IsClosed = false ↔ poly.points.length < 3) ∧
    (poly.IsClosed = false →
      ContainsV1 fuel poly pt = some false ∧ ContainsV2 fuel poly pt = some false) := by
  constructor
  · unfold Polygon.IsClosed
    split <;> simp_all
  · intro h
    unfold ContainsV1 ContainsV2
    rw [h]
    simp

/-- Witness for C2 at a one-point polygon. -/
theorem c2_witness :
    ContainsV1 5 (NewPolygon [⟨F.fin 0, F.fin 0⟩]) ⟨F.fin 1, F.fin 1⟩ = some false ∧
    ContainsV2 5 (NewPolygon [⟨F.fin 0, F.fin 0⟩]) ⟨F.fin 1, F.fin 1⟩ = some false :=
  (c2_isClosed_contains 5 (NewPolygon [⟨F.fin 0, F.fin 0⟩]) ⟨F.fin 1, F.fin 1⟩).2 (by decide)

/-! ## C1: the axis-aligned square, `Contains` from `polygon.go` -/

/-- The square contour (0,0)-(2,0)-(2,2)-(0,2)-(0,0) of the spec and of
`TestPolygon_Contains`. -/
def sqPolygon : Polygon :=
  NewPolygon [⟨F.fin 0, F.fin 0⟩, ⟨F.fin 2, F.fin 0⟩, ⟨F.fin 2, F.fin 2⟩,
    ⟨F.fin 0, F.fin 2⟩, ⟨F.fin 0, F.fin 0⟩]

/-- C1: on the square, `Contains` from `polygon.go` holds at (1,1), fails at
(3,1), and holds at every point equal to a vertex (boundary-inclusive on
vertices, via the exact-vertex early return). -/
theorem c1_square_contains :
    ContainsV1 9 sqPolygon ⟨F.fin 1, F.fin 1⟩ = some true ∧
    ContainsV1 9 sqPolygon ⟨F.fin 3, F.fin 1⟩ = some false ∧
    sqPolygon.points.all (fun v => ContainsV1 9 sqPolygon v == some true) = true := by
  decide

/-! ## Order facts about the float model, used to evaluate perturbed traces -/

theorem flt_fin_of_lt {a b : ℚ} (h : a < b) : flt (F.fin a) (F.fin b) = true := by
  simp [flt, h]

theorem flt_fin_of_ge {a b : ℚ} (h : b ≤ a) : flt (F.fin a) (F.fin b) = false := by
  simp [flt]
  exact h

theorem feq_fin_of_ne {a b : ℚ} (h : a ≠ b) : feq (F.fin a) (F.fin b) = false := by
  simp [feq, h]

theorem feq_fin_self (a : ℚ) : feq (F.fin a) (F.fin a) = true := by
  simp [feq]

theorem nextUp_fin_of_lt {q : ℚ} (h : q < maxF) : nextUp (F.fin q) = F.fin (q + dlt) := by
  simp [nextUp, not_le.2 h]

/-- A bump loop that fires exactly once. -/
theorem bumpWhileEq_once {x v : F} (h1 : feq x v = true) (h2 : feq (nextUp x) v = false)
    (n : ℕ) : bumpWhileEq v (n + 1) x = some (nextUp x) := by
  simp [bumpWhileEq, h1]
  exact bumpWhileEq_noop h2 n

/-! ## C4: the two `Contains` versions -/

/-- C4 counterexample: on the square of C1, the query (2,2) equals a
vertex.  `Contains` from `polygon.go` returns true by the exact-vertex
early return, while `Contains` from `part_001` perturbs both coordinates
one ULP above 2 (exactly as `math.Nextafter` does), pushing the query
outside every edge's latitude span, and returns false. -/
theorem c4_counterexample :
    ContainsV1 9 sqPolygon ⟨F.fin 2, F.fin 2⟩ = some true ∧
    ContainsV2 9 sqPolygon ⟨F.fin 2, F.fin 2⟩ = some false := by
  have hdp := dlt_pos
  have h2maxF : (2 : ℚ) < maxF := by norm_num [maxF]
  have hup2 : nextUp (F.fin 2) = F.fin (2 + dlt) := nextUp_fin_of_lt h2maxF
  have hb : bumpWhileEq (F.fin 2) 9 (F.fin 2) = some (F.fin (2 + dlt)) := by
    rw [show (9 : ℕ) = 8 + 1 from rfl,
      bumpWhileEq_once (feq_fin_self 2) (by rw [hup2]; exact feq_fin_of_ne (by nlinarith)) 8,
      hup2]
  have hne2 : feq (F.fin (2 + dlt)) (F.fin 2) = false := feq_fin_of_ne (by nlinarith)
  have hne0 : feq (F.fin (2 + dlt)) (F.fin 0) = false := feq_fin_of_ne (by nlinarith)
  have hgt2 : flt (F.fin 2) (F.fin (2 + dlt)) = true := flt_fin_of_lt (by nlinarith)
  have hgt0 : flt (F.fin 0) (F.fin (2 + dlt)) = true := flt_fin_of_lt (by nlinarith)
  have hp : perturbV2 9 sqPolygon.points ⟨F.fin 2, F.fin 2⟩ =
      some ⟨F.fin (2 + dlt), F.fin (2 + dlt)⟩ := by
    simp only [sqPolygon, NewPolygon, perturbV2, Option.bind_eq_bind,
      bumpWhileEq_noop (show feq (F.fin 2) (F.fin 0) = false by decide), hb,
      bumpWhileEq_noop hne0, bumpWhileEq_noop hne2, Option.some_bind]
  have hl00 : flt (F.fin 0) (F.fin 0) = false := by decide
  have hl02 : flt (F.fin 0) (F.fin 2) = true := by decide
  have hl20 : flt (F.fin 2) (F.fin 0) = false := by decide
  have hl22 : flt (F.fin 2) (F.fin 2) = false := by decide
  refine ⟨by decide, ?_⟩
  rw [ContainsV2, if_neg (by decide), hp]
  simp [edgeFoldV2, sqPolygon, NewPolygon, List.zip, List.zipWith, List.getLastD_cons,
    raycastV2, sortEdge, fgt, List.foldl, hgt0, hgt2, hl00, hl02, hl20, hl22]

theorem getLastD_mem {α : Type} (l : List α) (d : α) : l.getLastD d ∈ d :: l := by
  induction l generalizing d with
  | nil => simp
  | cons a t ih =>
    rw [List.getLastD_cons]
    rcases List.mem_cons.1 (ih a) with h | h
    · rw [h]
      exact List.mem_cons_of_mem d (List.mem_cons_self a t)
    · exact List.mem_cons_of_mem d (List.mem_cons_of_mem a h)

/-- When the query's latitude and longitude differ from both endpoint
coordinates, the per-edge perturbation loop and the
`point.lng == start.lng` guard of `polygon.go` are inert, and its raycast
agrees with the raycast of `part_001`. -/
theorem raycastV1_eq_raycastV2 (fuel : ℕ) (q s e : PointF)
    (hs : feq q.lat s.lat = false) (he : feq q.lat e.lat = false)
    (hls : feq q.lng s.lng = false) (hle : feq q.lng e.lng = false) :
    raycastV1 fuel q s e = some (raycastV2 q s e) := by
  have hab : (sortEdge s e = (s, e)) ∨ (sortEdge s e = (e, s)) := by
    unfold sortEdge
    split
    · exact Or.inr rfl
    · exact Or.inl rfl
  unfold raycastV1 raycastV2
  rcases hab with h | h <;> rw [h] <;>
    simp only [bumpWhileEq2_noop hs he, bumpWhileEq2_noop he hs, hls, hle] <;> rfl

/-- The monadic edge fold of `polygon.go` agrees with the pure edge fold of
`part_001` when every per-edge raycast succeeds and agrees. -/
theorem foldlM_raycast_eq (fuel : ℕ) (q : PointF) (l : List (PointF × PointF))
    (h : ∀ se ∈ l, raycastV1 fuel q se.1 se.2 = some (raycastV2 q se.1 se.2)) :
    ∀ acc : Bool,
      l.foldlM
        (fun acc se => do
          let r ← raycastV1 fuel q se.1 se.2
          pure (if r then !acc else acc)) acc =
      some (l.foldl (fun acc se => if raycastV2 q se.1 se.2 then !acc else acc) acc) := by
  induction l with
  | nil => intro acc; rfl
  | cons a t ih =>
    intro acc
    have ha := h a (by simp)
    simp only [List.foldlM, List.foldl, ha, Option.bind_eq_bind, Option.some_bind]
    exact ih (fun se hse => h se (List.mem_cons_of_mem _ hse)) _

theorem edgeFoldV1_eq_edgeFoldV2 (fuel : ℕ) (q : PointF) (pts : List PointF)
    (h : ∀ s ∈ pts, ∀ e ∈ pts, raycastV1 fuel q s e = some (raycastV2 q s e)) :
    edgeFoldV1 fuel q pts = some (edgeFoldV2 q pts) := by
  cases pts with
  | nil => rfl
  | cons v0 rest =>
    have hlast : rest.getLastD v0 ∈ v0 :: rest := getLastD_mem rest v0
    have hwrap := h (rest.getLastD v0) hlast v0 (List.mem_cons_self v0 rest)
    simp only [edgeFoldV1, edgeFoldV2, hwrap, Option.bind_eq_bind, Option.some_bind]
    exact foldlM_raycast_eq fuel q _ (fun se hse => by
      rcases List.of_mem_zip hse with ⟨h1, h2⟩
      exact h _ h1 _ (List.mem_cons_of_mem _ h2)) _

/-- C4 amended: the two versions of `Contains` agree on every polygon and
query point whose latitude differs from every vertex latitude and whose
longitude differs from every vertex longitude (so no perturbation fires,
no exact-vertex early return fires, and the longitude guard is inert). -/
theorem c4_amended (fuel : ℕ) (poly : Polygon) (q : PointF)
    (hd : ∀ v ∈ poly.points, feq q.lat v.lat = false ∧ feq q.lng v.lng = false) :
    ContainsV1 fuel poly q = ContainsV2 fuel poly q := by
  unfold ContainsV1 ContainsV2
  split
  · rfl
  · have hvm : vertexMatch q poly.points = false := by
      unfold vertexMatch
      rw [List.any_eq_false]
      intro v hv
      have := (hd v hv).1
      rw [feq_comm] at this
      simp [this]
    rw [hvm, perturbV2_noop fuel poly.points q hd]
    simp only [Bool.false_eq_true, if_false]
    exact edgeFoldV1_eq_edgeFoldV2 fuel q poly.points fun s hs e he =>
      raycastV1_eq_raycastV2 fuel q s e (hd s hs).1 (hd e he).1 (hd s hs).2 (hd e he).2

/-- Witness for C4 amended: the square of C1 with query (1,1), whose
coordinates differ from every vertex coordinate; both versions agree. -/
theorem c4_amended_witness :
    (∀ v ∈ sqPolygon.points,
      feq (F.fin 1) v.lat = false ∧ feq (F.fin 1) v.lng = false) ∧
    ContainsV1 7 sqPolygon ⟨F.fin 1, F.fin 1⟩ = ContainsV2 7 sqPolygon ⟨F.fin 1, F.fin 1⟩ :=
  ⟨by decide, c4_amended 7 sqPolygon ⟨F.fin 1, F.fin 1⟩ (by decide)⟩

/-! ## C5: reversal of the point order -/

/-- An axis-aligned contour (a rectangle with latitudes in `[0, 3*dlt]` and
longitudes in `[0, 10]`) carrying two extra collinear vertices on its left
edge at latitudes `2*dlt` and `dlt`.  All latitudes are subnormal doubles,
where the model's `nextUp` is bit-exact. -/
def c5Polygon : Polygon :=
  NewPolygon [⟨F.fin (dlt + dlt), F.fin 0⟩, ⟨F.fin dlt, F.fin 0⟩, ⟨F.fin 0, F.fin 0⟩,
    ⟨F.fin 0, F.fin 10⟩, ⟨F.fin (dlt + dlt + dlt), F.fin 10⟩,
    ⟨F.fin (dlt + dlt + dlt), F.fin 0⟩]

/-- The reverse of `c5Polygon`'s point sequence, as a polygon. -/
def c5PolygonRev : Polygon := NewPolygon c5Polygon.points.reverse

theorem dlt_lt_one : dlt < 1 := by
  rw [dlt, div_lt_one (by positivity)]
  exact one_lt_pow₀ (by norm_num) (by norm_num)

theorem two_lt_maxF : (2 : ℚ) < maxF := by norm_num [maxF]

set_option maxHeartbeats 1600000 in
theorem c5_counterexample :
    ContainsV2 9 c5Polygon ⟨F.fin dlt, F.fin 5⟩ = some true ∧
    ContainsV2 9 c5PolygonRev ⟨F.fin dlt, F.fin 5⟩ = some false := by
  have hdp := dlt_pos
  have hd1 := dlt_lt_one
  have h2max := two_lt_maxF
  have hd2 : (dlt : ℚ) < dlt + dlt := by nlinarith
  have hd3 : (dlt + dlt : ℚ) < dlt + dlt + dlt := by nlinarith
  have hdmax : (dlt : ℚ) < maxF := by nlinarith
  have hd2max : (dlt + dlt : ℚ) < maxF := by nlinarith
  have hup1 : nextUp (F.fin dlt) = F.fin (dlt + dlt) := nextUp_fin_of_lt hdmax
  have hup2 : nextUp (F.fin (dlt + dlt)) = F.fin (dlt + dlt + dlt) := nextUp_fin_of_lt hd2max
  -- equality tests among the latitudes involved
  have e_d_d2 : feq (F.fin dlt) (F.fin (dlt + dlt)) = false := feq_fin_of_ne (by nlinarith)
  have e_d_d3 : feq (F.fin dlt) (F.fin (dlt + dlt + dlt)) = false := feq_fin_of_ne (by nlinarith)
  have e_d_0 : feq (F.fin dlt) (F.fin 0) = false := feq_fin_of_ne (by nlinarith)
  have e_d2_0 : feq (F.fin (dlt + dlt)) (F.fin 0) = false := feq_fin_of_ne (by nlinarith)
  have e_d2_d3 : feq (F.fin (dlt + dlt)) (F.fin (dlt + dlt + dlt)) = false :=
    feq_fin_of_ne (by nlinarith)
  have e_d2_d : feq (F.fin (dlt + dlt)) (F.fin dlt) = false := feq_fin_of_ne (by nlinarith)
  have e_d3_0 : feq (F.fin (dlt + dlt + dlt)) (F.fin 0) = false := feq_fin_of_ne (by nlinarith)
  have e_d3_d : feq (F.fin (dlt + dlt + dlt)) (F.fin dlt) = false := feq_fin_of_ne (by nlinarith)
  have e_d3_d2 : feq (F.fin (dlt + dlt + dlt)) (F.fin (dlt + dlt)) = false :=
    feq_fin_of_ne (by nlinarith)
  -- order tests among the latitudes involved
  have l_0_d : flt (F.fin 0) (F.fin dlt) = true := flt_fin_of_lt (by nlinarith)
  have l_0_d2 : flt (F.fin 0) (F.fin (dlt + dlt)) = true := flt_fin_of_lt (by nlinarith)
  have l_0_d3 : flt (F.fin 0) (F.fin (dlt + dlt + dlt)) = true := flt_fin_of_lt (by nlinarith)
  have l_d_d2 : flt (F.fin dlt) (F.fin (dlt + dlt)) = true := flt_fin_of_lt (by nlinarith)
  have l_d_d3 : flt (F.fin dlt) (F.fin (dlt + dlt + dlt)) = true := flt_fin_of_lt (by nlinarith)
  have l_d2_d3 : flt (F.fin (dlt + dlt)) (F.fin (dlt + dlt + dlt)) = true :=
    flt_fin_of_lt (by nlinarith)
  have l_d_0 : flt (F.fin dlt) (F.fin 0) = false := flt_fin_of_ge (by nlinarith)
  have l_d2_0 : flt (F.fin (dlt + dlt)) (F.fin 0) = false := flt_fin_of_ge (by nlinarith)
  have l_d3_0 : flt (F.fin (dlt + dlt + dlt)) (F.fin 0) = false := flt_fin_of_ge (by nlinarith)
  have l_d2_d : flt (F.fin (dlt + dlt)) (F.fin dlt) = false := flt_fin_of_ge (by nlinarith)
  have l_d3_d : flt (F.fin (dlt + dlt + dlt)) (F.fin dlt) = false := flt_fin_of_ge (by nlinarith)
  have l_d3_d2 : flt (F.fin (dlt + dlt + dlt)) (F.fin (dlt + dlt)) = false :=
    flt_fin_of_ge (by nlinarith)
  have l_dd : flt (F.fin dlt) (F.fin dlt) = false := flt_fin_of_ge le_rfl
  have l_d2d2 : flt (F.fin (dlt + dlt)) (F.fin (dlt + dlt)) = false := flt_fin_of_ge le_rfl
  have l_d3d3 : flt (F.fin (dlt + dlt + dlt)) (F.fin (dlt + dlt + dlt)) = false :=
    flt_fin_of_ge le_rfl
  -- the one-step bumps of the query latitude
  have hb1 : bumpWhileEq (F.fin dlt) 9 (F.fin dlt) = some (F.fin (dlt + dlt)) := by
    rw [show (9 : ℕ) = 8 + 1 from rfl,
      bumpWhileEq_once (feq_fin_self dlt) (by rw [hup1]; exact e_d2_d) 8, hup1]
  have hb2 : bumpWhileEq (F.fin (dlt + dlt)) 9 (F.fin (dlt + dlt)) =
      some (F.fin (dlt + dlt + dlt)) := by
    rw [show (9 : ℕ) = 8 + 1 from rfl,
      bumpWhileEq_once (feq_fin_self (dlt + dlt)) (by rw [hup2]; exact e_d3_d2) 8, hup2]
  have hl50 : feq (F.fin 5) (F.fin 0) = false := by decide
  have hl510 : feq (F.fin 5) (F.fin 10) = false := by decide
  have t00 : flt (F.fin 0) (F.fin 0) = false := by decide
  have t05 : flt (F.fin 0) (F.fin 5) = true := by decide
  have t010 : flt (F.fin 0) (F.fin 10) = true := by decide
  have t50 : flt (F.fin 5) (F.fin 0) = false := by decide
  have t55 : flt (F.fin 5) (F.fin 5) = false := by decide
  have t510 : flt (F.fin 5) (F.fin 10) = true := by decide
  have t100 : flt (F.fin 10) (F.fin 0) = false := by decide
  have t105 : flt (F.fin 10) (F.fin 5) = false := by decide
  have t1010 : flt (F.fin 10) (F.fin 10) = false := by decide
  have hpF : perturbV2 9 c5Polygon.points ⟨F.fin dlt, F.fin 5⟩ =
      some ⟨F.fin (dlt + dlt), F.fin 5⟩ := by
    simp only [c5Polygon, NewPolygon, perturbV2, Option.bind_eq_bind, Option.some_bind,
      bumpWhileEq_noop e_d_d2, bumpWhileEq_noop e_d_d3, bumpWhileEq_noop e_d_0,
      bumpWhileEq_noop e_d2_0, bumpWhileEq_noop e_d2_d3, bumpWhileEq_noop hl50,
      bumpWhileEq_noop hl510, hb1]
  have hpR : perturbV2 9 c5PolygonRev.points ⟨F.fin dlt, F.fin 5⟩ =
      some ⟨F.fin (dlt + dlt + dlt), F.fin 5⟩ := by
    simp only [c5PolygonRev, c5Polygon, NewPolygon, perturbV2, Option.bind_eq_bind,
      Option.some_bind, List.reverse_cons, List.reverse_nil, List.nil_append,
      List.cons_append, bumpWhileEq_noop e_d_d2, bumpWhileEq_noop e_d_d3,
      bumpWhileEq_noop e_d_0, bumpWhileEq_noop e_d2_d3, bumpWhileEq_noop hl50,
      bumpWhileEq_noop hl510, hb1, hb2]
  constructor
  · rw [ContainsV2, if_neg (by decide), hpF]
    simp [edgeFoldV2, c5Polygon, NewPolygon, List.zip, List.zipWith, List.getLastD_cons,
      raycastV2, sortEdge, fgt, List.foldl, e_d2_0, e_d2_d3, e_d2_d,
      l_0_d, l_0_d2, l_0_d3, l_d_d2, l_d_d3, l_d2_d3, l_d_0, l_d2_0, l_d3_0,
      l_d2_d, l_d3_d, l_d3_d2, l_dd, l_d2d2, l_d3d3,
      t00, t05, t010, t50, t55, t510, t100, t105, t1010]
  · rw [ContainsV2, if_neg (by decide), hpR]
    simp [edgeFoldV2, c5PolygonRev, c5Polygon, NewPolygon, List.zip, List.zipWith,
      List.getLastD_cons, raycastV2, sortEdge, fgt, List.foldl, fsub, fdiv, fge,
      sub_self, sub_zero, zero_div, e_d3_0, e_d3_d, e_d3_d2,
      l_0_d, l_0_d2, l_0_d3, l_d_d2, l_d_d3, l_d2_d3, l_d_0, l_d2_0, l_d3_0,
      l_d2_d, l_d3_d, l_d3_d2, l_dd, l_d2d2, l_d3d3,
      t00, t05, t010, t50, t55, t510, t100, t105, t1010]

theorem flt_irrefl (x : F) : flt x x = false := by
  cases x <;> simp [flt]

theorem flt_asymm {a b : F} (h : flt a b = true) : flt b a = false := by
  cases a <;> cases b <;> simp_all [flt] <;> linarith

theorem F.trichotomy {a b : F} (ha : a ≠ F.nan) (hb : b ≠ F.nan) :
    flt a b = true ∨ flt b a = true ∨ a = b := by
  cases a with
  | nan => exact absurd rfl ha
  | ninf => cases b <;> simp_all [flt]
  | pinf => cases b <;> simp_all [flt]
  | fin qa =>
    cases b with
    | nan => exact absurd rfl hb
    | ninf => simp [flt]
    | pinf => simp [flt]
    | fin qb =>
      rcases lt_trichotomy qa qb with h | h | h
      · exact Or.inl (by simp [flt, h])
      · exact Or.inr (Or.inr (by rw [h]))
      · exact Or.inr (Or.inl (by simp [flt, h]))

/-- A slope comparison whose query coordinate is NaN is false. -/
theorem fge_nan_slope (u v w : F) : fge (fdiv (fsub F.nan u) v) w = false := by
  cases u <;> cases v <;> cases w <;> rfl

/-- The raycast of `part_001` is insensitive to the order of its two edge
endpoints, provided neither endpoint has a NaN coordinate and the query
point's coordinates differ from both endpoints' coordinates. -/
theorem raycastV2_symm (q s e : PointF)
    (hsl : s.lat ≠ F.nan) (hel : e.lat ≠ F.nan)
    (hsg : s.lng ≠ F.nan) (heg : e.lng ≠ F.nan)
    (hqs : feq q.lat s.lat = false) (hqe : feq q.lat e.lat = false) :
    raycastV2 q s e = raycastV2 q e s := by
  rcases F.trichotomy hsl hel with h | h | h
  · -- s.lat < e.lat: both orders normalize to (s, e)
    have h1 : sortEdge s e = (s, e) := by simp [sortEdge, fgt, flt_asymm h]
    have h2 : sortEdge e s = (s, e) := by simp [sortEdge, fgt, h]
    unfold raycastV2
    rw [h1, h2]
  · -- e.lat < s.lat: both orders normalize to (e, s)
    have h1 : sortEdge s e = (e, s) := by simp [sortEdge, fgt, h]
    have h2 : sortEdge e s = (e, s) := by simp [sortEdge, fgt, flt_asymm h]
    unfold raycastV2
    rw [h1, h2]
  · -- equal latitudes: no swap happens in either order
    have h1 : sortEdge s e = (s, e) := by simp [sortEdge, fgt, h, flt_irrefl]
    have h2 : sortEdge e s = (e, s) := by simp [sortEdge, fgt, h, flt_irrefl]
    unfold raycastV2
    rw [h1, h2]
    by_cases hq : q.lat = F.nan
    · -- NaN query latitude: the span check passes and every slope is NaN
      have hn1 : ∀ x : F, flt F.nan x = false := fun x => by cases x <;> rfl
      have hn2 : ∀ x : F, flt x F.nan = false := fun x => by cases x <;> rfl
      have hslope := fge_nan_slope
      rcases F.trichotomy hsg heg with hg | hg | hg
      · simp [fgt, h, hq, hn1, hn2, hslope, hg, flt_asymm hg]
      · simp [fgt, h, hq, hn1, hn2, hslope, hg, flt_asymm hg]
      · simp [fgt, h, hq, hn1, hn2, hslope, hg, flt_irrefl]
    · -- comparable query latitude off the shared edge latitude:
      -- the span check fails in both orders
      rcases F.trichotomy hq hel with hlt | hlt | hlt
      · simp [fgt, h, hlt]
      · simp [fgt, h, hlt, flt_asymm hlt]
      · rw [← hlt] at hqe
        rw [feq_self_of_ne_nan hq] at hqe
        exact absurd hqe (by simp)

/-- The consecutive edge pairs `(points[i-1], points[i])` scanned by the
`for` loop of `Contains`. -/
def consecutivePairs : List PointF → List (PointF × PointF)
  | [] => []
  | [_] => []
  | a :: b :: t => (a, b) :: consecutivePairs (b :: t)

theorem zip_tail_eq_consecutivePairs (pts : List PointF) :
    ∀ v0, ((v0 :: pts).zip pts) = consecutivePairs (v0 :: pts) := by
  induction pts with
  | nil => intro v0; rfl
  | cons b t ih =>
    intro v0
    simp only [List.zip, List.zipWith, consecutivePairs]
    exact congrArg _ (ih b)

/-- The full edge list of the scan: the wraparound edge first, then the
consecutive edges. -/
def edgeList (pts : List PointF) : List (PointF × PointF) :=
  match pts with
  | [] => []
  | v0 :: rest => (rest.getLastD v0, v0) :: consecutivePairs (v0 :: rest)

/-- The flip-on-crossing fold equals the parity of the crossing count. -/
theorem foldl_flip_parity (g : PointF × PointF → Bool) (l : List (PointF × PointF)) :
    ∀ init : Bool,
      l.foldl (fun acc se => if g se then !acc else acc) init =
        xor init ((l.countP g) % 2 == 1) := by
  induction l with
  | nil => intro init; simp
  | cons a t ih =>
    intro init
    rw [List.foldl_cons, List.countP_cons, ih]
    cases hg : g a <;> cases init <;>
      rcases Nat.mod_two_eq_zero_or_one (t.countP g) with h | h <;>
      simp [h, Nat.add_mod]

theorem getLastD_append_singleton {α : Type} (l : List α) (y d : α) :
    (l ++ [y]).getLastD d = y := by
  induction l generalizing d with
  | nil => rfl
  | cons a t ih =>
    rw [List.cons_append, List.getLastD_cons]
    exact ih a

theorem consPairs_append_singleton (xs : List PointF) :
    ∀ a y, consecutivePairs (a :: (xs ++ [y])) =
      consecutivePairs (a :: xs) ++ [(xs.getLastD a, y)] := by
  induction xs with
  | nil => intro a y; rfl
  | cons b t ih =>
    intro a y
    rw [show (a :: ((b :: t) ++ [y])) = a :: b :: (t ++ [y]) from rfl,
      show consecutivePairs (a :: b :: (t ++ [y])) =
        (a, b) :: consecutivePairs (b :: (t ++ [y])) from rfl,
      ih b, List.getLastD_cons]
    rfl

/-- Reversing the vertex list reverses and swaps the consecutive edges. -/
theorem consPairs_reverse (l : List PointF) :
    consecutivePairs l.reverse = ((consecutivePairs l).map Prod.swap).reverse := by
  induction l with
  | nil => rfl
  | cons a t ih =>
    cases t with
    | nil => rfl
    | cons b t' =>
      obtain ⟨c, xs, hcx⟩ : ∃ c xs, (b :: t').reverse = c :: xs := by
        cases h : (b :: t').reverse with
        | nil => exact absurd (congrArg List.length h) (by simp)
        | cons c xs => exact ⟨c, xs, rfl⟩
      have hlast : xs.getLastD c = b := by
        have h1 : (c :: xs).getLastD c = xs.getLastD c := List.getLastD_cons c c xs
        rw [← h1, ← hcx, List.reverse_cons, getLastD_append_singleton]
      calc consecutivePairs ((a :: b :: t').reverse)
          = consecutivePairs (c :: (xs ++ [a])) := by
            rw [List.reverse_cons, hcx]
            rfl
        _ = consecutivePairs (c :: xs) ++ [(xs.getLastD c, a)] :=
            consPairs_append_singleton xs c a
        _ = ((consecutivePairs (b :: t')).map Prod.swap).reverse ++ [(b, a)] := by
            rw [← hcx, ih, hlast]
        _ = ((consecutivePairs (a :: b :: t')).map Prod.swap).reverse := by
            rw [show consecutivePairs (a :: b :: t') =
              (a, b) :: consecutivePairs (b :: t') from rfl]
            rw [List.map_cons, List.reverse_cons]
            rfl

/-- The edge scan is the parity of the crossing count over the edge list. -/
theorem edgeFoldV2_eq_parity (p : PointF) (pts : List PointF) :
    edgeFoldV2 p pts =
      (((edgeList pts).countP (fun se => raycastV2 p se.1 se.2)) % 2 == 1) := by
  cases pts with
  | nil => rfl
  | cons v0 rest =>
    rw [edgeFoldV2, zip_tail_eq_consecutivePairs, foldl_flip_parity]
    rw [show edgeList (v0 :: rest) =
      (rest.getLastD v0, v0) :: consecutivePairs (v0 :: rest) from rfl]
    rw [List.countP_cons]
    rcases Nat.mod_two_eq_zero_or_one
        ((consecutivePairs (v0 :: rest)).countP (fun se => raycastV2 p se.1 se.2)) with h | h <;>
      cases hg : raycastV2 p (rest.getLastD v0) v0 <;>
      simp [h, hg, Nat.add_mod]

theorem headD_reverse {α : Type} (l : List α) (d : α) :
    l.reverse.headD d = l.getLastD d := by
  rw [List.headD_eq_head?_getD, List.head?_reverse, List.getLastD_eq_getLast?]

theorem countP_congr_mem {α : Type} (l : List α) (p q : α → Bool)
    (h : ∀ a ∈ l, p a = q a) : l.countP p = l.countP q := by
  induction l with
  | nil => rfl
  | cons a t ih =>
    rw [List.countP_cons, List.countP_cons, h a (List.mem_cons_self a t),
      ih (fun x hx => h x (List.mem_cons_of_mem a hx))]

/-- For a predicate that is invariant under swapping the edge endpoints,
the crossing count over the edge list is invariant under reversing the
vertex list. -/
theorem countP_edgeList_reverse (g : PointF × PointF → Bool) (pts : List PointF)
    (hsym : ∀ se ∈ edgeList pts, g se = g (Prod.swap se)) :
    (edgeList pts.reverse).countP g = (edgeList pts).countP g := by
  cases pts with
  | nil => rfl
  | cons v0 rest =>
    obtain ⟨c, xs, hcx⟩ : ∃ c xs, (v0 :: rest).reverse = c :: xs := by
      cases h : (v0 :: rest).reverse with
      | nil => exact absurd (congrArg List.length h) (by simp)
      | cons c xs => exact ⟨c, xs, rfl⟩
    have hc : c = rest.getLastD v0 := by
      have h1 := congrArg (fun l => List.headD l v0) hcx
      simp only at h1
      rw [headD_reverse, List.getLastD_cons] at h1
      exact h1.symm
    have hlastrev : xs.getLastD c = v0 := by
      have h1 : (c :: xs).getLastD c = xs.getLastD c := List.getLastD_cons c c xs
      rw [← h1, ← hcx, List.reverse_cons, getLastD_append_singleton]
    have hwrapmem : (rest.getLastD v0, v0) ∈ edgeList (v0 :: rest) := by
      rw [show edgeList (v0 :: rest) =
        (rest.getLastD v0, v0) :: consecutivePairs (v0 :: rest) from rfl]
      exact List.mem_cons_self _ _
    have hEL : edgeList ((v0 :: rest).reverse) = (v0, c) :: consecutivePairs (c :: xs) := by
      rw [hcx]
      rw [show edgeList (c :: xs) = (xs.getLastD c, c) :: consecutivePairs (c :: xs) from rfl,
        hlastrev]
    rw [hEL, List.countP_cons, ← hcx, consPairs_reverse,
      show edgeList (v0 :: rest) =
        (rest.getLastD v0, v0) :: consecutivePairs (v0 :: rest) from rfl,
      List.countP_cons, List.countP_reverse, List.countP_map]
    have hwrap : g (v0, c) = g (rest.getLastD v0, v0) := by
      rw [hc]
      exact (hsym _ hwrapmem).symm
    have hcons : (consecutivePairs (v0 :: rest)).countP (g ∘ Prod.swap) =
        (consecutivePairs (v0 :: rest)).countP g :=
      countP_congr_mem _ _ _ (fun se hse =>
        (hsym se (List.mem_cons_of_mem _ hse)).symm)
    rw [hwrap, hcons]

theorem mem_consPairs : ∀ (l : List PointF) (se : PointF × PointF),
    se ∈ consecutivePairs l → se.1 ∈ l ∧ se.2 ∈ l
  | [], se, h => absurd h (by simp [consecutivePairs])
  | [_], se, h => absurd h (by simp [consecutivePairs])
  | a :: b :: t, se, h => by
    rcases List.mem_cons.1 h with h | h
    · subst h
      exact ⟨by simp, by simp⟩
    · have hm := mem_consPairs (b :: t) se h
      exact ⟨List.mem_cons_of_mem a hm.1, List.mem_cons_of_mem a hm.2⟩

theorem mem_edgeList (pts : List PointF) (se : PointF × PointF)
    (h : se ∈ edgeList pts) : se.1 ∈ pts ∧ se.2 ∈ pts := by
  cases pts with
  | nil => exact absurd h (by simp [edgeList])
  | cons v0 rest =>
    rw [show edgeList (v0 :: rest) =
      (rest.getLastD v0, v0) :: consecutivePairs (v0 :: rest) from rfl] at h
    rcases List.mem_cons.1 h with h | h
    · subst h
      exact ⟨getLastD_mem rest v0, List.mem_cons_self v0 rest⟩
    · exact mem_consPairs _ se h

/-- C5 amended: `Contains` from `part_001` is invariant under reversing
the point order, provided the query point's latitude and longitude differ
from every vertex's (so the perturbation loop, whose result depends on
the vertex order, never fires) and no vertex coordinate is NaN. -/
theorem c5_amended (fuel : ℕ) (pts : List PointF) (q : PointF)
    (hd : ∀ v ∈ pts, feq q.lat v.lat = false ∧ feq q.lng v.lng = false)
    (hn : ∀ v ∈ pts, v.lat ≠ F.nan ∧ v.lng ≠ F.nan) :
    ContainsV2 fuel (NewPolygon pts.reverse) q = ContainsV2 fuel (NewPolygon pts) q := by
  have hdr : ∀ v ∈ pts.reverse, feq q.lat v.lat = false ∧ feq q.lng v.lng = false :=
    fun v hv => hd v (List.mem_reverse.1 hv)
  have hsym : ∀ se ∈ edgeList pts,
      (fun se => raycastV2 q se.1 se.2) se =
        (fun se => raycastV2 q se.1 se.2) (Prod.swap se) := by
    intro se hse
    obtain ⟨h1, h2⟩ := mem_edgeList pts se hse
    exact raycastV2_symm q se.1 se.2 (hn _ h1).1 (hn _ h2).1 (hn _ h1).2 (hn _ h2).2
      (hd _ h1).1 (hd _ h2).1
  unfold ContainsV2
  rw [show (NewPolygon pts.reverse).IsClosed = (NewPolygon pts).IsClosed by
    simp [NewPolygon, Polygon.IsClosed]]
  split
  · rfl
  · simp only [show (NewPolygon pts.reverse).points = pts.reverse from rfl,
      show (NewPolygon pts).points = pts from rfl,
      perturbV2_noop fuel pts.reverse q hdr, perturbV2_noop fuel pts q hd]
    rw [edgeFoldV2_eq_parity, edgeFoldV2_eq_parity,
      countP_edgeList_reverse _ pts hsym]

/-- Witness for C5 amended: the square of C1 and the interior query (1,1),
which shares no coordinate with any vertex. -/
theorem c5_amended_witness :
    ContainsV2 9 (NewPolygon sqPolygon.points.reverse) ⟨F.fin 1, F.fin 1⟩ =
      ContainsV2 9 (NewPolygon sqPolygon.points) ⟨F.fin 1, F.fin 1⟩ ∧
    ContainsV2 9 (NewPolygon sqPolygon.points) ⟨F.fin 1, F.fin 1⟩ = some true :=
  ⟨c5_amended 9 sqPolygon.points ⟨F.fin 1, F.fin 1⟩ (by decide) (by decide), by decide⟩

/-! ## C3: the invariant claimed for the perturbation loop of `part_001` -/

/-- Three vertices whose latitudes are consecutive subnormal doubles
`2*ulp, ulp, 0`: processing the second vertex bumps the query latitude
onto the first vertex's latitude. -/
def c3Pts : List PointF :=
  [⟨F.fin (dlt + dlt), F.fin 10⟩, ⟨F.fin dlt, F.fin 20⟩, ⟨F.fin 0, F.fin 30⟩]

/-- C3 counterexample: after the avoidance loop completes on `c3Pts`, the
perturbed query's latitude exactly equals the first vertex's latitude, so
the loop does not guarantee that the query differs from every vertex. -/
theorem c3_counterexample :
    perturbV2 9 c3Pts ⟨F.fin dlt, F.fin 5⟩ = some ⟨F.fin (dlt + dlt), F.fin 5⟩ ∧
    feq (F.fin (dlt + dlt)) (c3Pts.get ⟨0, by decide⟩).lat = true := by
  have hdp := dlt_pos
  have hd1 := dlt_lt_one
  have h2max := two_lt_maxF
  have hup1 : nextUp (F.fin dlt) = F.fin (dlt + dlt) := nextUp_fin_of_lt (by nlinarith)
  have e_d_d2 : feq (F.fin dlt) (F.fin (dlt + dlt)) = false := feq_fin_of_ne (by nlinarith)
  have e_d2_d : feq (F.fin (dlt + dlt)) (F.fin dlt) = false := feq_fin_of_ne (by nlinarith)
  have e_d2_0 : feq (F.fin (dlt + dlt)) (F.fin 0) = false := feq_fin_of_ne (by nlinarith)
  have hb1 : bumpWhileEq (F.fin dlt) 9 (F.fin dlt) = some (F.fin (dlt + dlt)) := by
    rw [show (9 : ℕ) = 8 + 1 from rfl,
      bumpWhileEq_once (feq_fin_self dlt) (by rw [hup1]; exact e_d2_d) 8, hup1]
  refine ⟨?_, feq_fin_self _⟩
  simp only [c3Pts, perturbV2, Option.bind_eq_bind, Option.some_bind,
    bumpWhileEq_noop e_d_d2, bumpWhileEq_noop e_d2_0, hb1,
    bumpWhileEq_noop (show feq (F.fin 5) (F.fin 10) = false by decide),
    bumpWhileEq_noop (show feq (F.fin 5) (F.fin 20) = false by decide),
    bumpWhileEq_noop (show feq (F.fin 5) (F.fin 30) = false by decide)]

/-- One pass of the avoidance loop for a single vertex coordinate either
leaves the value alone (it already differed) or replaces it by the
successor of the vertex coordinate. -/
theorem bumpWhileEq_cases {v x y : F} {fuel : ℕ} (h : bumpWhileEq v fuel x = some y) :
    (y = x ∧ feq x v = false) ∨ (x = v ∧ y = nextUp v ∧ feq (nextUp v) v = false) := by
  cases fuel with
  | zero =>
    rw [bumpWhileEq] at h
    by_cases hc : feq x v = true
    · rw [if_pos hc] at h
      exact Option.noConfusion h
    · rw [if_neg hc] at h
      exact Or.inl ⟨(Option.some.inj h).symm, Bool.eq_false_iff.2 hc⟩
  | succ n =>
    rw [bumpWhileEq] at h
    by_cases hc : feq x v = true
    · rw [if_pos hc] at h
      have hx := feq_eq hc
      subst hx
      by_cases hc2 : feq (nextUp x) x = true
      · exfalso
        have hnv : nextUp x = x := feq_eq hc2
        have hloop : ∀ m, bumpWhileEq x m x = none := by
          intro m
          induction m with
          | zero =>
            rw [bumpWhileEq, if_pos hc]
          | succ k ihk =>
            rw [bumpWhileEq, if_pos hc, hnv]
            exact ihk
        rw [hnv, hloop n] at h
        exact Option.noConfusion h
      · have hc2f : feq (nextUp x) x = false := Bool.eq_false_iff.2 hc2
        rw [bumpWhileEq_noop hc2f n] at h
        exact Or.inr ⟨rfl, (Option.some.inj h).symm, hc2f⟩
    · rw [if_neg hc] at h
      exact Or.inl ⟨(Option.some.inj h).symm, Bool.eq_false_iff.2 hc⟩

/-- Every coordinate of the perturbed point is either the original
coordinate or the successor of some vertex's coordinate. -/
theorem perturbV2_origin {fuel : ℕ} : ∀ (l : List PointF) (p p' : PointF),
    perturbV2 fuel l p = some p' →
    (p'.lat = p.lat ∨ ∃ w ∈ l, p'.lat = nextUp w.lat) ∧
    (p'.lng = p.lng ∨ ∃ w ∈ l, p'.lng = nextUp w.lng) := by
  intro l
  induction l with
  | nil =>
    intro p p' h
    rw [perturbV2] at h
    rw [← Option.some.inj h]
    exact ⟨Or.inl rfl, Or.inl rfl⟩
  | cons v vs ih =>
    intro p p' h
    rw [perturbV2] at h
    cases hlat : bumpWhileEq v.lat fuel p.lat with
    | none => rw [hlat] at h; exact Option.noConfusion h
    | some lat1 =>
      cases hlng : bumpWhileEq v.lng fuel p.lng with
      | none => rw [hlat, hlng] at h; exact Option.noConfusion h
      | some lng1 =>
        rw [hlat, hlng] at h
        simp only [Option.bind_eq_bind, Option.some_bind] at h
        obtain ⟨ihlat, ihlng⟩ := ih ⟨lat1, lng1⟩ p' h
        constructor
        · rcases ihlat with h1 | ⟨w, hw, hww⟩
          · rcases bumpWhileEq_cases hlat with ⟨h2, _⟩ | ⟨_, h2, _⟩
            · exact Or.inl (by rw [h1]; exact h2)
            · exact Or.inr ⟨v, List.mem_cons_self v vs, by rw [h1]; exact h2⟩
          · exact Or.inr ⟨w, List.mem_cons_of_mem v hw, hww⟩
        · rcases ihlng with h1 | ⟨w, hw, hww⟩
          · rcases bumpWhileEq_cases hlng with ⟨h2, _⟩ | ⟨_, h2, _⟩
            · exact Or.inl (by rw [h1]; exact h2)
            · exact Or.inr ⟨v, List.mem_cons_self v vs, by rw [h1]; exact h2⟩
          · exact Or.inr ⟨w, List.mem_cons_of_mem v hw, hww⟩

/-- Either the perturbed coordinate differs from every vertex coordinate
(in the IEEE sense), or it is the successor of some vertex coordinate. -/
theorem perturbV2_sep {fuel : ℕ} : ∀ (l : List PointF) (p p' : PointF),
    perturbV2 fuel l p = some p' →
    ((∀ v ∈ l, feq p'.lat v.lat = false) ∨ ∃ w ∈ l, p'.lat = nextUp w.lat) ∧
    ((∀ v ∈ l, feq p'.lng v.lng = false) ∨ ∃ w ∈ l, p'.lng = nextUp w.lng) := by
  intro l
  induction l with
  | nil =>
    intro p p' _
    exact ⟨Or.inl (by simp), Or.inl (by simp)⟩
  | cons v vs ih =>
    intro p p' h
    rw [perturbV2] at h
    cases hlat : bumpWhileEq v.lat fuel p.lat with
    | none => rw [hlat] at h; exact Option.noConfusion h
    | some lat1 =>
      cases hlng : bumpWhileEq v.lng fuel p.lng with
      | none => rw [hlat, hlng] at h; exact Option.noConfusion h
      | some lng1 =>
        rw [hlat, hlng] at h
        simp only [Option.bind_eq_bind, Option.some_bind] at h
        obtain ⟨ihlat, ihlng⟩ := ih ⟨lat1, lng1⟩ p' h
        obtain ⟨olat, olng⟩ := perturbV2_origin vs ⟨lat1, lng1⟩ p' h
        constructor
        · rcases ihlat with h1 | ⟨w, hw, hww⟩
          · rcases olat with h2 | ⟨w, hw, hww⟩
            · rcases bumpWhileEq_cases hlat with ⟨h3, h4⟩ | ⟨_, h3, _⟩
              · refine Or.inl ?_
                intro u hu
                rcases List.mem_cons.1 hu with hu | hu
                · subst hu
                  rw [h2, h3]
                  exact h4
                · exact h1 u hu
              · exact Or.inr ⟨v, List.mem_cons_self v vs, by rw [h2]; exact h3⟩
            · exact Or.inr ⟨w, List.mem_cons_of_mem v hw, hww⟩
          · exact Or.inr ⟨w, List.mem_cons_of_mem v hw, hww⟩
        · rcases ihlng with h1 | ⟨w, hw, hww⟩
          · rcases olng with h2 | ⟨w, hw, hww⟩
            · rcases bumpWhileEq_cases hlng with ⟨h3, h4⟩ | ⟨_, h3, _⟩
              · refine Or.inl ?_
                intro u hu
                rcases List.mem_cons.1 hu with hu | hu
                · subst hu
                  rw [h2, h3]
                  exact h4
                · exact h1 u hu
              · exact Or.inr ⟨v, List.mem_cons_self v vs, by rw [h2]; exact h3⟩
            · exact Or.inr ⟨w, List.mem_cons_of_mem v hw, hww⟩
          · exact Or.inr ⟨w, List.mem_cons_of_mem v hw, hww⟩

theorem fsub_ne_zero_of_feq_false {a b : F} (h : feq a b = false) : fsub a b ≠ F.fin 0 := by
  cases a <;> cases b <;> simp_all [feq, fsub]
  exact sub_ne_zero_of_ne h

theorem fsub_ne_zero_of_ne {a b : F} (h : a ≠ b) : fsub a b ≠ F.fin 0 := by
  cases a <;> cases b <;> simp_all [fsub]
  exact sub_ne_zero_of_ne h

/-- The control-flow condition of `intersectsWithRaycast` in `part_001`
under which its slope comparison (the two division lines) is evaluated:
the latitude span check passed, and neither longitude-band branch decided
the result. -/
def reachesSlope (point s e : PointF) : Bool :=
  let se := sortEdge s e
  let start := se.1
  let endp := se.2
  !(flt point.lat start.lat || fgt point.lat endp.lat) &&
    (if fgt start.lng endp.lng then !fgt point.lng start.lng && !flt point.lng endp.lng
     else !fgt point.lng endp.lng && !flt point.lng start.lng)

/-- C3 amended: the perturbation loop guarantees the perturbed query
differs from every vertex coordinate only under a separation hypothesis:
no vertex latitude (longitude) is the exact successor of another vertex
latitude (longitude).  Under that hypothesis, whenever a raycast reaches
the slope comparison, the query-side divisor `point.lng - start.lng` is
nonzero, and the edge-side divisor `end.lng - start.lng` is nonzero
provided the edge's two longitudes differ (duplicate longitudes remain the
caller's responsibility, as the spec notes). -/
theorem c3_amended (fuel : ℕ) (pts : List PointF) (q p' : PointF)
    (hsep : ∀ v ∈ pts, ∀ w ∈ pts,
      feq (nextUp v.lat) w.lat = false ∧ feq (nextUp v.lng) w.lng = false)
    (hp : perturbV2 fuel pts q = some p') :
    (∀ v ∈ pts, feq p'.lat v.lat = false ∧ feq p'.lng v.lng = false) ∧
    (∀ s ∈ pts, ∀ e ∈ pts, reachesSlope p' s e = true →
      fsub p'.lng (sortEdge s e).1.lng ≠ F.fin 0 ∧
      ((sortEdge s e).1.lng ≠ (sortEdge s e).2.lng →
        fsub (sortEdge s e).2.lng (sortEdge s e).1.lng ≠ F.fin 0)) := by
  have hinv : ∀ v ∈ pts, feq p'.lat v.lat = false ∧ feq p'.lng v.lng = false := by
    obtain ⟨hlat, hlng⟩ := perturbV2_sep pts q p' hp
    intro v hv
    constructor
    · rcases hlat with h1 | ⟨w, hw, hww⟩
      · exact h1 v hv
      · rw [hww]
        exact (hsep w hw v hv).1
    · rcases hlng with h1 | ⟨w, hw, hww⟩
      · exact h1 v hv
      · rw [hww]
        exact (hsep w hw v hv).2
  refine ⟨hinv, ?_⟩
  intro s hs e he _
  have hmem : (sortEdge s e).1 ∈ pts ∧ (sortEdge s e).2 ∈ pts := by
    unfold sortEdge
    split
    · exact ⟨he, hs⟩
    · exact ⟨hs, he⟩
  exact ⟨fsub_ne_zero_of_feq_false (hinv _ hmem.1).2,
    fun hne => fsub_ne_zero_of_ne (Ne.symm hne)⟩

theorem five_lt_maxF : (5 : ℚ) < maxF := by norm_num [maxF]

/-- A triangle whose coordinates are 0 and 5 (no vertex coordinate is one
ULP above another's), used to witness the amended C3. -/
def c3WitPts : List PointF :=
  [⟨F.fin 0, F.fin 0⟩, ⟨F.fin 5, F.fin 0⟩, ⟨F.fin 0, F.fin 5⟩]

/-- Witness for C3 amended at `c3WitPts` and query (1,1): the perturbation
is the identity and the separation invariant holds. -/
theorem c3_amended_witness :
    (∀ v ∈ c3WitPts, feq (F.fin 1) v.lat = false ∧ feq (F.fin 1) v.lng = false) ∧
    (∀ s ∈ c3WitPts, ∀ e ∈ c3WitPts,
      reachesSlope ⟨F.fin 1, F.fin 1⟩ s e = true →
      fsub (F.fin 1) (sortEdge s e).1.lng ≠ F.fin 0 ∧
      ((sortEdge s e).1.lng ≠ (sortEdge s e).2.lng →
        fsub (sortEdge s e).2.lng (sortEdge s e).1.lng ≠ F.fin 0)) :=
  c3_amended 9 c3WitPts ⟨F.fin 1, F.fin 1⟩ ⟨F.fin 1, F.fin 1⟩
    (by
      have hdp := dlt_pos
      have hd1 := dlt_lt_one
      have h2m := two_lt_maxF
      have h5m := five_lt_maxF
      have h0 : nextUp (F.fin 0) = F.fin (0 + dlt) := nextUp_fin_of_lt (by nlinarith)
      have h5 : nextUp (F.fin 5) = F.fin (5 + dlt) := nextUp_fin_of_lt (by nlinarith)
      intro v hv w hw
      fin_cases hv <;> fin_cases hw <;>
        refine ⟨?_, ?_⟩ <;>
        simp only [h0, h5] <;>
        exact feq_fin_of_ne (by nlinarith))
    (perturbV2_noop 9 c3WitPts ⟨F.fin 1, F.fin 1⟩ (by decide))

/-! ## C6: termination of `Contains` -/

theorem flt_self_nextUp (x : F) (h1 : x ≠ F.nan) (h2 : x ≠ F.pinf) :
    flt x (nextUp x) = true := by
  cases x with
  | nan => exact absurd rfl h1
  | pinf => exact absurd rfl h2
  | ninf => rfl
  | fin q =>
    rw [nextUp]
    split
    · rfl
    · simp only [flt]
      have := dlt_pos
      simp only [decide_eq_true_eq]
      linarith

theorem flt_trans {a b c : F} (h1 : flt a b = true) (h2 : flt b c = true) :
    flt a c = true := by
  cases a <;> cases b <;> cases c <;> simp_all [flt]
  linarith

theorem ne_of_flt {a b : F} (h : flt a b = true) : a ≠ b := fun he => by
  rw [he, flt_irrefl] at h
  exact Bool.noConfusion h

theorem feq_false_of_ne {x y : F} (h : x ≠ y) : feq x y = false := by
  cases hc : feq x y
  · rfl
  · exact absurd (feq_eq hc) h

theorem ne_nan_of_feq {x y : F} (h : feq x y = true) : x ≠ F.nan := by
  intro he
  rw [he] at h
  cases y <;> exact Bool.noConfusion h

/-- The single-coordinate avoidance loop terminates within any positive
fuel whenever the vertex coordinate is not `+Inf`. -/
theorem bumpWhileEq_total {v : F} (hv : v ≠ F.pinf) (x : F) (n : ℕ) :
    ∃ y, bumpWhileEq v (n + 1) x = some y := by
  by_cases hc : feq x v = true
  · refine ⟨nextUp x, ?_⟩
    rw [bumpWhileEq, if_pos hc]
    have hx := feq_eq hc
    have hxp : x ≠ F.pinf := by rw [hx]; exact hv
    have hfalse : feq (nextUp x) v = false := by
      rw [← hx]
      exact feq_nextUp_self x hxp
    exact bumpWhileEq_noop hfalse n
  · exact ⟨x, by rw [bumpWhileEq, if_neg hc]⟩

/-- The two-coordinate avoidance loop of `polygon.go` terminates within
fuel `n + 2` whenever neither endpoint latitude is `+Inf`. -/
theorem bumpWhileEq2_total {a b : F} (ha : a ≠ F.pinf) (hb : b ≠ F.pinf) (x : F) (n : ℕ) :
    ∃ y, bumpWhileEq2 a b (n + 2) x = some y := by
  by_cases hc : (feq x a || feq x b) = true
  · have hx : x = a ∨ x = b := by
      rcases Bool.or_eq_true_iff.mp hc with h | h
      · exact Or.inl (feq_eq h)
      · exact Or.inr (feq_eq h)
    have hxnan : x ≠ F.nan := by
      rcases Bool.or_eq_true_iff.mp hc with h | h <;> exact ne_nan_of_feq h
    have hxpinf : x ≠ F.pinf := by
      rcases hx with h | h <;> rw [h] <;> assumption
    have hlt1 : flt x (nextUp x) = true := flt_self_nextUp x hxnan hxpinf
    have hstep1 : bumpWhileEq2 a b (n + 2) x = bumpWhileEq2 a b (n + 1) (nextUp x) := by
      rw [bumpWhileEq2, if_pos hc]
    by_cases hc2 : (feq (nextUp x) a || feq (nextUp x) b) = true
    · have hx1 : nextUp x = a ∨ nextUp x = b := by
        rcases Bool.or_eq_true_iff.mp hc2 with h | h
        · exact Or.inl (feq_eq h)
        · exact Or.inr (feq_eq h)
      have hx1nan : nextUp x ≠ F.nan := by
        rcases Bool.or_eq_true_iff.mp hc2 with h | h <;> exact ne_nan_of_feq h
      have hx1pinf : nextUp x ≠ F.pinf := by
        rcases hx1 with h | h <;> rw [h] <;> assumption
      have hlt2 : flt (nextUp x) (nextUp (nextUp x)) = true :=
        flt_self_nextUp (nextUp x) hx1nan hx1pinf
      have hlt12 : flt x (nextUp (nextUp x)) = true := flt_trans hlt1 hlt2
      have hx1x : nextUp x ≠ x := fun he => ne_of_flt hlt1 he.symm
      have h2a : feq (nextUp (nextUp x)) a = false := by
        rcases hx with h | h
        · exact feq_false_of_ne fun he => ne_of_flt hlt12 (h ▸ he.symm)
        · rcases hx1 with h1 | h1
          · exact feq_false_of_ne fun he => ne_of_flt hlt2 (h1 ▸ he.symm)
          · exact absurd (h1.trans h.symm) hx1x
      have h2b : feq (nextUp (nextUp x)) b = false := by
        rcases hx with h | h
        · rcases hx1 with h1 | h1
          · exact absurd (h1.trans h.symm) hx1x
          · exact feq_false_of_ne fun he => ne_of_flt hlt2 (h1 ▸ he.symm)
        · exact feq_false_of_ne fun he => ne_of_flt hlt12 (h ▸ he.symm)
      refine ⟨nextUp (nextUp x), ?_⟩
      rw [hstep1, bumpWhileEq2, if_pos hc2]
      exact bumpWhileEq2_noop h2a h2b n
    · refine ⟨nextUp x, ?_⟩
      rw [hstep1, bumpWhileEq2, if_neg hc2]
  · exact ⟨x, by rw [bumpWhileEq2, if_neg hc]⟩

/-- The raycast of `polygon.go` returns a result within fuel `n + 2`
whenever neither edge endpoint has latitude `+Inf`. -/
theorem raycastV1_total {s e : PointF} (hs : s.lat ≠ F.pinf) (he : e.lat ≠ F.pinf)
    (q : PointF) (n : ℕ) : ∃ r, raycastV1 (n + 2) q s e = some r := by
  have h1 : (sortEdge s e).1.lat ≠ F.pinf := by
    unfold sortEdge
    split
    · exact he
    · exact hs
  have h2 : (sortEdge s e).2.lat ≠ F.pinf := by
    unfold sortEdge
    split
    · exact hs
    · exact he
  obtain ⟨y, hy⟩ := bumpWhileEq2_total h1 h2 q.lat n
  rw [raycastV1]
  rw [hy]
  exact ⟨_, rfl⟩

theorem edgeFoldV1_total (pts : List PointF) (hp : ∀ v ∈ pts, v.lat ≠ F.pinf)
    (q : PointF) (n : ℕ) : ∃ r, edgeFoldV1 (n + 2) q pts = some r := by
  cases pts with
  | nil => exact ⟨false, rfl⟩
  | cons v0 rest =>
    have hlastmem := getLastD_mem rest v0
    obtain ⟨c0, hc0⟩ :=
      raycastV1_total (hp _ hlastmem) (hp v0 (List.mem_cons_self v0 rest)) q n
    have hfold : ∀ (l : List (PointF × PointF)),
        (∀ se ∈ l, se.1 ∈ v0 :: rest ∧ se.2 ∈ v0 :: rest) →
        ∀ acc : Bool, ∃ r,
          l.foldlM
            (fun acc se => do
              let r ← raycastV1 (n + 2) q se.1 se.2
              pure (if r then !acc else acc)) acc = some r := by
      intro l
      induction l with
      | nil => intro _ acc; exact ⟨acc, rfl⟩
      | cons a t ih =>
        intro hmem acc
        obtain ⟨r1, hr1⟩ :=
          raycastV1_total (hp _ (hmem a (List.mem_cons_self a t)).1)
            (hp _ (hmem a (List.mem_cons_self a t)).2) q n
        obtain ⟨r2, hr2⟩ := ih (fun se hse => hmem se (List.mem_cons_of_mem a hse))
          (if r1 then !acc else acc)
        refine ⟨r2, ?_⟩
        rw [List.foldlM, hr1]
        simp only [Option.bind_eq_bind, Option.some_bind]
        exact hr2
    obtain ⟨r, hr⟩ := hfold ((v0 :: rest).zip rest)
      (fun se hse => by
        obtain ⟨hh1, hh2⟩ := List.of_mem_zip hse
        exact ⟨hh1, List.mem_cons_of_mem v0 hh2⟩) c0
    refine ⟨r, ?_⟩
    rw [edgeFoldV1, hc0]
    simp only [Option.bind_eq_bind, Option.some_bind]
    exact hr

theorem perturbV2_total (pts : List PointF)
    (hp : ∀ v ∈ pts, v.lat ≠ F.pinf ∧ v.lng ≠ F.pinf) (q : PointF) (n : ℕ) :
    ∃ p', perturbV2 (n + 1) pts q = some p' := by
  induction pts generalizing q with
  | nil => exact ⟨q, rfl⟩
  | cons v vs ih =>
    obtain ⟨lat1, hlat⟩ := bumpWhileEq_total (hp v (List.mem_cons_self v vs)).1 q.lat n
    obtain ⟨lng1, hlng⟩ := bumpWhileEq_total (hp v (List.mem_cons_self v vs)).2 q.lng n
    obtain ⟨p', hp'⟩ := ih (fun w hw => hp w (List.mem_cons_of_mem v hw)) ⟨lat1, lng1⟩
    refine ⟨p', ?_⟩
    rw [perturbV2, hlat, hlng]
    simp only [Option.bind_eq_bind, Option.some_bind]
    exact hp'

/-- C6 amended: both versions of `Contains` terminate (return a boolean
within a fixed fuel) for every query point, provided no vertex coordinate
is `+Inf`.  The query itself may be anything, including NaN and the
infinities. -/
theorem c6_amended (poly : Polygon) (q : PointF)
    (hp : ∀ v ∈ poly.points, v.lat ≠ F.pinf ∧ v.lng ≠ F.pinf) :
    (∃ b, ContainsV1 3 poly q = some b) ∧ (∃ b, ContainsV2 3 poly q = some b) := by
  constructor
  · rw [ContainsV1]
    split
    · exact ⟨false, rfl⟩
    · split
      · exact ⟨true, rfl⟩
      · exact edgeFoldV1_total poly.points (fun v hv => (hp v hv).1) q 1
  · rw [ContainsV2]
    split
    · exact ⟨false, rfl⟩
    · obtain ⟨p', hp'⟩ := perturbV2_total poly.points hp q 2
      rw [hp']
      exact ⟨_, rfl⟩

/-- Termination of the `polygon.go` `Contains`: some fuel suffices. -/
def TerminatesV1 (poly : Polygon) (q : PointF) : Prop :=
  ∃ fuel b, ContainsV1 fuel poly q = some b

/-- Termination of the `part_001` `Contains`: some fuel suffices. -/
def TerminatesV2 (poly : Polygon) (q : PointF) : Prop :=
  ∃ fuel b, ContainsV2 fuel poly q = some b

theorem bumpWhileEq_pinf_diverges : ∀ fuel, bumpWhileEq F.pinf fuel F.pinf = none := by
  intro fuel
  induction fuel with
  | zero => rfl
  | succ n ih =>
    rw [bumpWhileEq, if_pos (by rfl)]
    exact ih

theorem bumpWhileEq2_pinf_diverges (a : F) : ∀ fuel, bumpWhileEq2 a F.pinf fuel F.pinf = none := by
  intro fuel
  induction fuel with
  | zero =>
    rw [bumpWhileEq2, if_pos (by simp [feq])]
  | succ n ih =>
    rw [bumpWhileEq2, if_pos (by simp [feq])]
    exact ih

/-- The polygon of the C6 counterexample: its first vertex has latitude
`+Inf`. -/
def c6Polygon : Polygon :=
  NewPolygon [⟨F.pinf, F.fin 0⟩, ⟨F.fin 0, F.fin 0⟩, ⟨F.fin 1, F.fin 2⟩]

/-- The query of the C6 counterexample: latitude `+Inf` (matching the
first vertex's), longitude 5 (so the exact-vertex early return of
`polygon.go` does not fire). -/
def c6Query : PointF := ⟨F.pinf, F.fin 5⟩

theorem c6_V2_none (fuel : ℕ) : ContainsV2 fuel c6Polygon c6Query = none := by
  have hp : perturbV2 fuel c6Polygon.points c6Query = none := by
    rw [show c6Polygon.points =
      (⟨F.pinf, F.fin 0⟩ : PointF) :: [⟨F.fin 0, F.fin 0⟩, ⟨F.fin 1, F.fin 2⟩] from rfl,
      perturbV2]
    rw [show (⟨F.pinf, F.fin 0⟩ : PointF).lat = F.pinf from rfl,
      show c6Query.lat = F.pinf from rfl, bumpWhileEq_pinf_diverges fuel]
    rfl
  rw [ContainsV2, if_neg (by decide), hp]

theorem c6_V1_none (fuel : ℕ) : ContainsV1 fuel c6Polygon c6Query = none := by
  have hr : raycastV1 fuel c6Query ⟨F.fin 1, F.fin 2⟩ ⟨F.pinf, F.fin 0⟩ = none := by
    rw [raycastV1]
    rw [show sortEdge ⟨F.fin 1, F.fin 2⟩ ⟨F.pinf, F.fin 0⟩ =
      (⟨F.fin 1, F.fin 2⟩, ⟨F.pinf, F.fin 0⟩) from by rw [sortEdge, if_neg (by decide)]]
    rw [show ((⟨F.fin 1, F.fin 2⟩ : PointF), (⟨F.pinf, F.fin 0⟩ : PointF)).2.lat =
      F.pinf from rfl]
    rw [show c6Query.lat = F.pinf from rfl, bumpWhileEq2_pinf_diverges _ fuel]
  rw [ContainsV1, if_neg (by decide), if_neg (by decide)]
  rw [show c6Polygon.points =
    (⟨F.pinf, F.fin 0⟩ : PointF) :: [⟨F.fin 0, F.fin 0⟩, ⟨F.fin 1, F.fin 2⟩] from rfl,
    edgeFoldV1]
  rw [show ([(⟨F.fin 0, F.fin 0⟩ : PointF), ⟨F.fin 1, F.fin 2⟩]).getLastD
    ⟨F.pinf, F.fin 0⟩ = ⟨F.fin 1, F.fin 2⟩ from rfl, hr]
  rfl

/-- C6 counterexample: on a polygon with a `+Inf` vertex latitude and a
query with `+Inf` latitude, the perturbation loops of both versions spin
forever (`Nextafter(+Inf, +Inf) = +Inf` leaves the value unchanged while
the equality test stays true): no fuel produces a result. -/
theorem c6_counterexample :
    ¬ TerminatesV1 c6Polygon c6Query ∧ ¬ TerminatesV2 c6Polygon c6Query := by
  constructor
  · rintro ⟨fuel, b, hb⟩
    rw [c6_V1_none fuel] at hb
    exact Option.noConfusion hb
  · rintro ⟨fuel, b, hb⟩
    rw [c6_V2_none fuel] at hb
    exact Option.noConfusion hb

/-- Witness for C6 amended: the square of C1 (finite vertices) with a NaN
query still terminates in both versions. -/
theorem c6_amended_witness :
    (∃ b, ContainsV1 3 sqPolygon ⟨F.nan, F.nan⟩ = some b) ∧
    (∃ b, ContainsV2 3 sqPolygon ⟨F.nan, F.nan⟩ = some b) :=
  c6_amended sqPolygon ⟨F.nan, F.nan⟩ (by decide)

/-! ## C7: the `point.lng == start.lng` guard of `polygon.go` -/

/-- The square (0,0)-(0,2)-(2,2)-(2,0)-(0,0); the query (1,2) below lies
on its right edge, sharing its longitude with the edge's start vertex. -/
def c7Polygon : Polygon :=
  NewPolygon [⟨F.fin 0, F.fin 0⟩, ⟨F.fin 0, F.fin 2⟩, ⟨F.fin 2, F.fin 2⟩,
    ⟨F.fin 2, F.fin 0⟩, ⟨F.fin 0, F.fin 0⟩]

/-- C7: in `intersectsWithRaycast` of `polygon.go`, once the endpoints are
normalized and the query latitude has been perturbed, if the latitude-span
check and the longitude-band checks did not decide the result and the
query's longitude equals the start's, the raycast returns false (first
conjunct).  Consequently `Contains` reports the boundary point (1,2) of
`c7Polygon` as not contained even though its latitude 1 lies strictly
inside the right edge's span [0,2] (remaining conjuncts). -/
theorem c7_lng_guard :
    (∀ (fuel : ℕ) (q s e : PointF) (plat : F),
      bumpWhileEq2 (sortEdge s e).1.lat (sortEdge s e).2.lat fuel q.lat = some plat →
      flt plat (sortEdge s e).1.lat = false →
      fgt plat (sortEdge s e).2.lat = false →
      (if fgt (sortEdge s e).1.lng (sortEdge s e).2.lng = true
        then fgt q.lng (sortEdge s e).1.lng = false ∧ flt q.lng (sortEdge s e).2.lng = false
        else fgt q.lng (sortEdge s e).2.lng = false ∧ flt q.lng (sortEdge s e).1.lng = false) →
      feq q.lng (sortEdge s e).1.lng = true →
      raycastV1 fuel q s e = some false) ∧
    ContainsV1 9 c7Polygon ⟨F.fin 1, F.fin 2⟩ = some false ∧
    raycastV1 9 ⟨F.fin 1, F.fin 2⟩ ⟨F.fin 0, F.fin 2⟩ ⟨F.fin 2, F.fin 2⟩ = some false ∧
    flt (F.fin 1) (F.fin 0) = false ∧ fgt (F.fin 1) (F.fin 2) = false := by
  refine ⟨?_, by decide, by decide, by decide, by decide⟩
  intro fuel q s e plat hb h1 h2 hband hguard
  rw [raycastV1, hb]
  simp only
  rw [h1, h2]
  simp only [Bool.or_self, Bool.false_eq_true, if_false]
  cases hdir : fgt (sortEdge s e).1.lng (sortEdge s e).2.lng with
  | true =>
    rw [if_pos hdir] at hband
    simp [hdir, hband.1, hband.2, hguard]
  | false =>
    rw [if_neg (by rw [hdir]; exact Bool.false_ne_true)] at hband
    simp [hdir, hband.1, hband.2, hguard]

/-- Witness for C7: the guard clause applied to the right edge of
`c7Polygon` and the query (1,2). -/
theorem c7_witness :
    raycastV1 7 ⟨F.fin 1, F.fin 2⟩ ⟨F.fin 0, F.fin 2⟩ ⟨F.fin 2, F.fin 2⟩ = some false :=
  c7_lng_guard.1 7 ⟨F.fin 1, F.fin 2⟩ ⟨F.fin 0, F.fin 2⟩ ⟨F.fin 2, F.fin 2⟩ (F.fin 1)
    (by decide) (by decide) (by decide) (by decide) (by decide)

/-! ## C8: `Add` and Go slice semantics

`Polygon.Add` is `p.points = append(p.points, point); return p` on a value
receiver.  Go's `append` re-uses the backing array when the slice has
spare capacity and allocates a fresh one otherwise (Go spec, "Appending to
and copying slices").  To make that observable we model slices explicitly:
a heap of backing arrays (a list of arrays, the array length being the
capacity) and a slice as an array index plus a length.  `sliceView` is
what `Points()` lets a caller observe. -/

/-- A Go slice header: backing-array id and length.  (Capacity is the
backing array's length.) -/
structure GoSlice where
  arrId : ℕ
  len : ℕ
deriving DecidableEq

/-- The heap of backing arrays. -/
structure Mem where
  arrays : List (List PointF)
deriving DecidableEq

def Mem.readArr (m : Mem) (i : ℕ) : List PointF := m.arrays.getD i []

def Mem.writeArr (m : Mem) (i : ℕ) (a : List PointF) : Mem := ⟨m.arrays.set i a⟩

/-- The observable content of a slice: the first `len` cells of its
backing array. -/
def sliceView (m : Mem) (s : GoSlice) : List PointF := (m.readArr s.arrId).take s.len

/-- Go `append` of one element: write in place when capacity allows,
otherwise allocate a fresh backing array (its capacity beyond `len + 1`
is irrelevant to the claims, so the model allocates exactly `len + 1`). -/
def goAppend (m : Mem) (s : GoSlice) (x : PointF) : Mem × GoSlice :=
  let a := m.readArr s.arrId
  if s.len < a.length then
    (m.writeArr s.arrId (a.set s.len x), ⟨s.arrId, s.len + 1⟩)
  else
    (⟨m.arrays ++ [a.take s.len ++ [x]]⟩, ⟨m.arrays.length, s.len + 1⟩)

/-- Model of `Polygon.Add` from `polygon.go` at the slice level:
`p.points = append(p.points, point); return p` on a value receiver. -/
def PolygonAdd (m : Mem) (p : GoSlice) (x : PointF) : Mem × GoSlice := goAppend m p x

/-- A well-formed slice: its backing array exists and covers its length. -/
def SliceWF (m : Mem) (s : GoSlice) : Prop :=
  s.arrId < m.arrays.length ∧ s.len ≤ (m.readArr s.arrId).length

theorem take_set_of_le {α : Type} : ∀ (l : List α) (n k : ℕ) (x : α), k ≤ n →
    (l.set n x).take k = l.take k
  | [], _, _, _, _ => by simp
  | a :: t, n, 0, x, _ => by simp
  | a :: t, 0, k + 1, x, h => absurd h (by omega)
  | a :: t, n + 1, k + 1, x, h => by
    simp only [List.set_cons_succ, List.take_succ_cons]
    rw [take_set_of_le t n k x (by omega)]

theorem take_succ_set {α : Type} : ∀ (l : List α) (n : ℕ) (x : α), n < l.length →
    (l.set n x).take (n + 1) = l.take n ++ [x]
  | [], n, x, h => absurd h (by simp)
  | a :: t, 0, x, _ => by simp
  | a :: t, n + 1, x, h => by
    simp only [List.set_cons_succ, List.take_succ_cons, List.cons_append]
    rw [take_succ_set t n x (by simpa using h)]

theorem getD_set_self {α : Type} : ∀ (l : List α) (i : ℕ) (x d : α), i < l.length →
    (l.set i x).getD i d = x
  | [], i, _, _, h => absurd h (by simp)
  | _ :: _, 0, _, _, _ => rfl
  | _ :: t, i + 1, x, d, h => by
    simp only [List.set_cons_succ, List.getD_cons_succ]
    exact getD_set_self t i x d (by simpa using h)

theorem getD_append_left {α : Type} : ∀ (l l' : List α) (i : ℕ) (d : α), i < l.length →
    (l ++ l').getD i d = l.getD i d
  | [], _, i, _, h => absurd h (by simp)
  | _ :: _, _, 0, _, _ => rfl
  | _ :: t, l', i + 1, d, h => by
    simp only [List.cons_append, List.getD_cons_succ]
    exact getD_append_left t l' i d (by simpa using h)

theorem getD_append_length {α : Type} : ∀ (l : List α) (x d : α),
    (l ++ [x]).getD l.length d = x
  | [], _, _ => rfl
  | a :: t, x, d => by
    simp only [List.cons_append, List.length_cons, List.getD_cons_succ]
    exact getD_append_length t x d

/-- C8 amended: `Add` leaves the receiver's observable point sequence
unchanged and returns a polygon whose observable sequence is the
receiver's with the point appended.  (What fails in the original claim is
only the no-shared-backing-storage part; see the counterexample.) -/
theorem c8_amended (m : Mem) (p : GoSlice) (x : PointF) (hwf : SliceWF m p) :
    sliceView (PolygonAdd m p x).1 (PolygonAdd m p x).2 = sliceView m p ++ [x] ∧
    sliceView (PolygonAdd m p x).1 p = sliceView m p := by
  obtain ⟨hid, hlen⟩ := hwf
  rw [PolygonAdd, goAppend]
  by_cases hcap : p.len < (m.readArr p.arrId).length
  · rw [if_pos hcap]
    have hread : (m.writeArr p.arrId ((m.readArr p.arrId).set p.len x)).readArr p.arrId =
        (m.readArr p.arrId).set p.len x := by
      rw [Mem.writeArr, Mem.readArr]
      exact getD_set_self m.arrays p.arrId _ [] hid
    constructor
    · rw [show sliceView (m.writeArr p.arrId ((m.readArr p.arrId).set p.len x))
          ⟨p.arrId, p.len + 1⟩ =
          ((m.writeArr p.arrId ((m.readArr p.arrId).set p.len x)).readArr p.arrId).take
            (p.len + 1) from rfl, hread]
      rw [take_succ_set _ _ _ hcap]
      rfl
    · rw [show sliceView (m.writeArr p.arrId ((m.readArr p.arrId).set p.len x)) p =
          ((m.writeArr p.arrId ((m.readArr p.arrId).set p.len x)).readArr p.arrId).take
            p.len from rfl, hread]
      rw [take_set_of_le _ _ _ _ (le_refl p.len)]
      rfl
  · rw [if_neg hcap]
    have hfull : p.len = (m.readArr p.arrId).length := le_antisymm hlen (not_lt.1 hcap)
    constructor
    · rw [show sliceView ⟨m.arrays ++ [(m.readArr p.arrId).take p.len ++ [x]]⟩
          ⟨m.arrays.length, p.len + 1⟩ =
          ((⟨m.arrays ++ [(m.readArr p.arrId).take p.len ++ [x]]⟩ : Mem).readArr
            m.arrays.length).take (p.len + 1) from rfl]
      rw [Mem.readArr]
      rw [getD_append_length m.arrays _ []]
      rw [List.take_of_length_le (by
        rw [List.length_append, List.length_take]
        simp [hfull])]
      rfl
    · rw [show sliceView ⟨m.arrays ++ [(m.readArr p.arrId).take p.len ++ [x]]⟩ p =
          ((⟨m.arrays ++ [(m.readArr p.arrId).take p.len ++ [x]]⟩ : Mem).readArr
            p.arrId).take p.len from rfl]
      rw [Mem.readArr, getD_append_left m.arrays _ p.arrId [] hid]
      rfl

/-- The zero point used in the C8 heap. -/
def zeroPt : PointF := ⟨F.fin 0, F.fin 0⟩

/-- A heap with one backing array of capacity 4, and a 3-element polygon
slice over it (as produced by `make([]Point, 3, 4)`). -/
def c8Mem : Mem := ⟨[[zeroPt, zeroPt, zeroPt, zeroPt]]⟩

def c8Slice : GoSlice := ⟨0, 3⟩

/-- C8 counterexample: with spare capacity, two `Add`s on the same
receiver write the same backing cell.  The polygon returned by the first
`Add` observes the second `Add`'s mutation: its fourth point silently
changes from (1,1) to (2,2). -/
theorem c8_counterexample :
    (let r1 := PolygonAdd c8Mem c8Slice ⟨F.fin 1, F.fin 1⟩
     let r2 := PolygonAdd r1.1 c8Slice ⟨F.fin 2, F.fin 2⟩
     sliceView r1.1 r1.2 = [zeroPt, zeroPt, zeroPt, ⟨F.fin 1, F.fin 1⟩] ∧
     sliceView r2.1 r1.2 = [zeroPt, zeroPt, zeroPt, ⟨F.fin 2, F.fin 2⟩] ∧
     sliceView r1.1 r1.2 ≠ sliceView r2.1 r1.2) := by
  decide

/-- Witness for C8 amended at the concrete heap `c8Mem`. -/
theorem c8_amended_witness :
    sliceView (PolygonAdd c8Mem c8Slice ⟨F.fin 1, F.fin 1⟩).1
        (PolygonAdd c8Mem c8Slice ⟨F.fin 1, F.fin 1⟩).2 =
      sliceView c8Mem c8Slice ++ [⟨F.fin 1, F.fin 1⟩] ∧
    sliceView (PolygonAdd c8Mem c8Slice ⟨F.fin 1, F.fin 1⟩).1 c8Slice =
      sliceView c8Mem c8Slice :=
  c8_amended c8Mem c8Slice ⟨F.fin 1, F.fin 1⟩ ⟨by decide, by decide⟩

/-! ## C9, C10: the point codecs

`binary.Write(buf, binary.LittleEndian, p.lat)` serializes the eight
`math.Float64bits` bytes of the float64, and `binary.Read` consumes them
back verbatim; no arithmetic touches the value.  The codec claims are
therefore settled at the bit level: a point is modelled by the two 64-bit
patterns of its fields, and the round trip being the identity on patterns
is exactly the bit-for-bit claim. -/

/-- A `Point` at the bit level: `lat`/`lng` are `Float64bits` patterns. -/
structure PointBits where
  lat : ℕ
  lng : ℕ
deriving DecidableEq

/-- The 8 little-endian bytes of a 64-bit word. -/
def le64 (w : ℕ) : List ℕ :=
  [w % 256, w / 256 % 256, w / 256 ^ 2 % 256, w / 256 ^ 3 % 256,
   w / 256 ^ 4 % 256, w / 256 ^ 5 % 256, w / 256 ^ 6 % 256, w / 256 ^ 7 % 256]

/-- Reassemble a 64-bit word from 8 little-endian bytes. -/
def de64 (bs : List ℕ) : ℕ := bs.foldr (fun b acc => b + 256 * acc) 0

/-- Model of `binary.Read` of one float64: consume 8 bytes or fail. -/
def read64 (data : List ℕ) : Option (ℕ × List ℕ) :=
  if 8 ≤ data.length then some (de64 (data.take 8), data.drop 8) else none

/-- Model of `MarshalBinary` from `point.go`: little-endian lat then lng.  (Its
error result is always nil: `binary.Write` to a `bytes.Buffer` cannot
fail for a float64.) -/
def MarshalBinary (p : PointBits) : List ℕ := le64 p.lat ++ le64 p.lng

/-- Model of `UnmarshalBinary` from `point.go`: read lat then lng in that order;
on a failed read the receiver is left unchanged and an error is
returned. -/
def UnmarshalBinary (p : PointBits) (data : List ℕ) : PointBits × Option String :=
  match read64 data with
  | none => (p, some "binary.Read failed")
  | some (lat, rest) =>
    match read64 rest with
    | none => (p, some "binary.Read failed")
    | some (lng, _) => (⟨lat, lng⟩, none)

theorem de64_le64 (w : ℕ) (h : w < 2 ^ 64) : de64 (le64 w) = w := by
  simp only [le64, de64, List.foldr]
  norm_num
  omega

/-- C9: `MarshalBinary` always succeeds with exactly 16 bytes — the
little-endian pattern of lat followed by that of lng — and
`UnmarshalBinary` on that output succeeds and reconstructs the point
bit for bit, whatever the receiver held before. -/
theorem c9_binary_roundtrip (p recv : PointBits) (h1 : p.lat < 2 ^ 64)
    (h2 : p.lng < 2 ^ 64) :
    (MarshalBinary p).length = 16 ∧
    MarshalBinary p = le64 p.lat ++ le64 p.lng ∧
    UnmarshalBinary recv (MarshalBinary p) = (p, none) := by
  refine ⟨by simp [MarshalBinary, le64], rfl, ?_⟩
  have hr1 : read64 (MarshalBinary p) = some (de64 (le64 p.lat), le64 p.lng) := by
    rw [read64, if_pos (by simp [MarshalBinary, le64])]
    rw [show (MarshalBinary p).take 8 = le64 p.lat by simp [MarshalBinary, le64]]
    rw [show (MarshalBinary p).drop 8 = le64 p.lng by simp [MarshalBinary, le64]]
  have hr2 : read64 (le64 p.lng) = some (de64 (le64 p.lng), []) := by
    rw [read64, if_pos (by simp [le64])]
    rw [show (le64 p.lng).take 8 = le64 p.lng by simp [le64]]
    rw [show (le64 p.lng).drop 8 = ([] : List ℕ) by simp [le64]]
  simp only [UnmarshalBinary, hr1, hr2, de64_le64 p.lat h1, de64_le64 p.lng h2]

/-- Witness for C9 at a concrete bit pattern. -/
theorem c9_binary_roundtrip_witness :
    (MarshalBinary ⟨3, 2 ^ 63 + 5⟩).length = 16 ∧
    MarshalBinary ⟨3, 2 ^ 63 + 5⟩ = le64 3 ++ le64 (2 ^ 63 + 5) ∧
    UnmarshalBinary ⟨0, 0⟩ (MarshalBinary ⟨3, 2 ^ 63 + 5⟩) = (⟨3, 2 ^ 63 + 5⟩, none) :=
  c9_binary_roundtrip ⟨3, 2 ^ 63 + 5⟩ ⟨0, 0⟩ (by norm_num) (by norm_num)

/-- A parsed JSON value as seen by `encoding/json` after syntactic
parsing (payloads that the decode into `map[string]float64` never
inspects are elided).  Malformed text fails before reaching this stage
and is a decode error in both the model and the code. -/
inductive JVal where
  | num : ℚ → JVal
  | str : JVal
  | boolean : Bool → JVal
  | null : JVal
  | arr : JVal
  | obj : List (String × JVal) → JVal

/-- Decoding a JSON object's fields into float64 values: every field
value must be a number. -/
def fieldsNumeric : List (String × JVal) → Option (List (String × ℚ))
  | [] => some []
  | (k, JVal.num q) :: rest => (fieldsNumeric rest).map (fun m => (k, q) :: m)
  | _ :: _ => none

/-- Model of `dec.Decode` into a `map[string]float64`. -/
def decodeNumMap : JVal → Except String (List (String × ℚ))
  | JVal.obj fields =>
    match fieldsNumeric fields with
    | some m => Except.ok m
    | none => Except.error "json: cannot unmarshal value into float64"
  | _ => Except.error "json: cannot unmarshal value into map"

/-- Go map indexing `values[k]`: a missing key yields the zero value. -/
def lookupOrZero (m : List (String × ℚ)) (k : String) : ℚ :=
  match m.find? (fun kv => kv.1 == k) with
  | some kv => kv.2
  | none => 0

/-- A `Point` with rational field values, for the JSON codec. -/
structure PointQ where
  lat : ℚ
  lng : ℚ
deriving DecidableEq

/-- Model of `UnmarshalJSON` from `point.go`: decode the body into
`map[string]float64` and build the point from `values["lat"]` and
`values["lng"]`; a missing key silently contributes Go's zero value. -/
def UnmarshalJSON (body : JVal) : Except String PointQ :=
  match decodeNumMap body with
  | Except.error e => Except.error e
  | Except.ok values => Except.ok ⟨lookupOrZero values "lat", lookupOrZero values "lng"⟩

/-- C10 counterexample: a well-formed JSON object whose fields are
misnamed (`latitude`/`longitude`) decodes WITHOUT an error — the claim
that `UnmarshalJSON` errors on every object missing `lat`/`lng` is false;
the point silently becomes (0,0). -/
theorem c10_counterexample :
    UnmarshalJSON (JVal.obj [("latitude", JVal.num 1), ("longitude", JVal.num 2)]) =
      Except.ok ⟨0, 0⟩ := rfl

/-- C10 amended: `UnmarshalJSON` succeeds on every JSON object all of
whose fields are numbers, missing `lat`/`lng` keys defaulting to 0 (it
errors only when the body fails to decode as such a map), while
`UnmarshalBinary` does return an error for every input shorter than 16
bytes and leaves the receiver unchanged in that case. -/
theorem c10_amended :
    (∀ (fields : List (String × JVal)) (m : List (String × ℚ)),
      fieldsNumeric fields = some m →
      UnmarshalJSON (JVal.obj fields) =
        Except.ok ⟨lookupOrZero m "lat", lookupOrZero m "lng"⟩) ∧
    (∀ (recv : PointBits) (data : List ℕ), data.length < 16 →
      (UnmarshalBinary recv data).1 = recv ∧ (UnmarshalBinary recv data).2 ≠ none) := by
  constructor
  · intro fields m h
    rw [UnmarshalJSON, decodeNumMap, h]
  · intro recv data hlen
    by_cases h8 : 8 ≤ data.length
    · have hx : read64 data = some (de64 (data.take 8), data.drop 8) := by
        rw [read64, if_pos h8]
      have hy : read64 (data.drop 8) = none := by
        rw [read64, if_neg (by rw [List.length_drop]; omega)]
      simp only [UnmarshalBinary, hx, hy]
      exact ⟨by simp, by simp⟩
    · have hx : read64 data = none := by rw [read64, if_neg h8]
      simp only [UnmarshalBinary, hx]
      exact ⟨by simp, by simp⟩

/-- Witness for C10 amended: an object with misnamed numeric fields
decodes without error, and a 5-byte binary input errors with the
receiver unchanged. -/
theorem c10_amended_witness :
    UnmarshalJSON (JVal.obj [("latitude", JVal.num 7)]) =
      Except.ok ⟨lookupOrZero [("latitude", 7)] "lat", lookupOrZero [("latitude", 7)] "lng"⟩ ∧
    (UnmarshalBinary ⟨11, 12⟩ [1, 2, 3, 4, 5]).1 = ⟨11, 12⟩ ∧
    (UnmarshalBinary ⟨11, 12⟩ [1, 2, 3, 4, 5]).2 ≠ none :=
  ⟨c10_amended.1 [("latitude", JVal.num 7)] [("latitude", 7)] rfl,
    c10_amended.2 ⟨11, 12⟩ [1, 2, 3, 4, 5] (by decide)⟩
